import Mathlib

/-!
Shallow embedding of `spark_sql_generator.py` (spark-sql-generator repository).

The Python module turns a list of schema-evolution operation groups
(ADD / REMOVE / MOVE / REORDER / REPLACE) into `ALTER TABLE` statements.
The ADD path is implemented by `OrderPreservingGenerator`, which rebuilds a
nested struct/array tree from a flat list of dotted-path field descriptors.

Python strings are modelled as Lean `String` (a wrapper around `List Char`);
Python `dict`s (insertion ordered, assignment replaces in place) are modelled
as association lists; Python `set`s (only membership is ever queried) as
`List String`.  The recursive struct renderer is given explicit fuel (the
Python recursion is bounded by the maximal path length, and every recursive
call strictly lengthens the current path, so the fuel chosen in
`add_column_definitions` is never exhausted on inputs whose paths index the
recursion).
-/

/-! ## Python string primitives -/

/-- Python `str.split(sep)` for a single-character separator, on char lists:
accumulates the current piece (reversed) and flushes it at each separator. -/
def splitCharGo (sep : Char) : List Char → List Char → List (List Char)
  | [], acc => [acc.reverse]
  | c :: cs, acc =>
      if c = sep then acc.reverse :: splitCharGo sep cs []
      else splitCharGo sep cs (c :: acc)

/-- Python `s.split(sep)` for a one-character separator. -/
def pySplitChar (sep : Char) (s : String) : List String :=
  (splitCharGo sep s.data []).map String.mk

/-- Python `path.split(".")`. -/
def splitDot (s : String) : List String :=
  pySplitChar '.' s

/-- Python `sep.join(pieces)`. -/
def pyJoin (sep : String) : List String → String
  | [] => ""
  | [s] => s
  | s :: rest => s ++ sep ++ pyJoin sep rest

/-- Python `".".join(pieces)`. -/
def joinDot (l : List String) : String :=
  pyJoin "." l

/-- Split at the first occurrence of a one-character separator, if any
(Python `s.split(sep, 1)` yields two pieces exactly when this is `some`). -/
def splitFirstCharGo (sep : Char) : List Char → Option (List Char × List Char)
  | [] => none
  | c :: cs =>
      if c = sep then some ([], cs)
      else (splitFirstCharGo sep cs).map (fun p => (c :: p.1, p.2))

/-- Python `s.split(sep, 1)` for a one-character separator. -/
def pySplit1Char (sep : Char) (s : String) : List String :=
  match splitFirstCharGo sep s.data with
  | none => [s]
  | some (a, b) => [String.mk a, String.mk b]

/-- Boolean prefix test on char lists (Python `startswith`). -/
def isPre : List Char → List Char → Bool
  | [], _ => true
  | _ :: _, [] => false
  | a :: as_, b :: bs => a = b && isPre as_ bs

/-- Python `s.startswith(pre)`. -/
def pyStartswith (s pre : String) : Bool :=
  isPre pre.data s.data

/-- Split at the leftmost occurrence of the substring `pat`, returning the
text before it and the text after it. -/
def subSplitGo (pat : List Char) : List Char → Option (List Char × List Char)
  | [] => none
  | c :: cs =>
      if isPre pat (c :: cs) then some ([], (c :: cs).drop pat.length)
      else (subSplitGo pat cs).map (fun p => (c :: p.1, p.2))

/-- Python `pat in s` (substring containment). -/
def containsSub (pat s : String) : Bool :=
  (subSplitGo pat.data s.data).isSome

/-- Python `s.split(pat, 1)` for a multi-character separator. -/
def pySplit1Sub (pat s : String) : List String :=
  match subSplitGo pat.data s.data with
  | none => [s]
  | some (a, b) => [String.mk a, String.mk b]

/-- Iterated leftmost splitting; the fuel passed by `pySplitSub` exceeds the
string length, and each step strictly shortens the remainder, so the
fuel-exhausted branch is unreachable there. -/
def subSplitAllGo (pat : List Char) : Nat → List Char → List (List Char)
  | 0, s => [s]
  | fuel + 1, s =>
      match subSplitGo pat s with
      | none => [s]
      | some (a, b) => a :: subSplitAllGo pat fuel b

/-- Python `s.split(pat)` for a non-empty multi-character separator. -/
def pySplitSub (pat s : String) : List String :=
  (subSplitAllGo pat.data (s.data.length + 1) s.data).map String.mk

/-- Python `s.count(pat)` (non-overlapping occurrences). -/
def countSub (pat s : String) : Nat :=
  (pySplitSub pat s).length - 1

/-- Python `s[n:]` (slicing drops `n` codepoints). -/
def pyDrop (s : String) (n : Nat) : String :=
  String.mk (s.data.drop n)

/-- Python `s.count(c)` for a single character. -/
def pyCountChar (c : Char) (s : String) : Nat :=
  s.data.count c

/-- Python `" " * n`. -/
def spaces (n : Nat) : String :=
  String.mk (List.replicate n ' ')

/-- Python whitespace characters stripped by `str.strip()`. -/
def pyIsSpace (c : Char) : Bool :=
  c = ' ' || c = '\t' || c = '\n' || c = '\r' || c = Char.ofNat 11 || c = Char.ofNat 12

/-- Truthiness of Python `s.strip()`: some character survives stripping. -/
def stripTruthy (s : String) : Bool :=
  s.data.any (fun c => !pyIsSpace c)

/-! ## Python dict / sort primitives -/

/-- Lookup in an insertion-ordered association list (Python `d.get(k)`). -/
def dget {α : Type} (d : List (String × α)) (k : String) : Option α :=
  match d.find? (fun e => e.1 = k) with
  | some e => some e.2
  | none => none

/-- Python `d[k] = v`: replace in place if the key exists, else append. -/
def dset {α : Type} (d : List (String × α)) (k : String) (v : α) : List (String × α) :=
  match d with
  | [] => [(k, v)]
  | e :: es => if e.1 = k then (k, v) :: es else e :: dset es k v

/-- Python `k in d`. -/
def dmem {α : Type} (d : List (String × α)) (k : String) : Bool :=
  (dget d k).isSome

/-- Python `d.keys()` (insertion order). -/
def dkeys {α : Type} (d : List (String × α)) : List String :=
  d.map (fun e => e.1)

/-- Insert `a` after every element whose key is `≤ key a` (keeps Python's
stable-sort behaviour when elements are inserted left to right). -/
def sortInsert {α : Type} (key : α → Int) (a : α) : List α → List α
  | [] => [a]
  | b :: bs => if key b ≤ key a then b :: sortInsert key a bs else a :: b :: bs

/-- Python `sorted(l, key=key)` / `l.sort(key=key)`: stable sort by key. -/
def pySortBy {α : Type} (key : α → Int) (l : List α) : List α :=
  l.foldl (fun acc a => sortInsert key a acc) []

/-! ## Collaborators from `helper.py` (not part of `src/`) -/

/-- Modelled from the spec: the primitive-type-name normalization table
`spark_ddl_types` lives in `helper.py`, which is absent from the sources;
the spec specifies "raw name → canonical SQL type name; unknown names pass
through unchanged" and its bit-exact Scenario 1 forces `string ↦ STRING`.
Only the entry the scenarios force is modelled. -/
def spark_ddl_types : String → Option String := fun t =>
  if t = "string" then some "STRING" else none

/-- Python `spark_ddl_types.get(t, t)`. -/
def ddlGet (t : String) : String :=
  (spark_ddl_types t).getD t

/-- Modelled from the spec: the comment formatter `get_property_description`
lives in `helper.py`, which is absent from the sources; the spec specifies
"raw doc string → quoted SQL literal, default to empty-string literal when
doc is absent", and its bit-exact Scenario 1 output `COMMENT '' ` shows the
quoted literal is followed by one space. -/
def get_property_description (doc : String) : String :=
  "'" ++ doc ++ "' "

/-! ## Data model -/

/-- The single child descriptor optionally carried by an array descriptor's
`nestedFields` attribute (`{name, type, doc}`; the `name` key is always
present in this shape, so it is not optional here). -/
structure NF where
  name : String
  type : Option String := none
  doc : Option String := none
deriving Repr, DecidableEq

/-- Value of a descriptor's `nestedFields` attribute: either the literal
string `"None"` or a `{name, type, doc}` dict (a present dict is modelled as
truthy, matching the non-empty dicts of the input shape). -/
inductive NFVal where
  | noneStr
  | dict (nf : NF)
deriving Repr, DecidableEq

/-- A FieldDescriptor of an ADD operation group; `path` and `value` (the
spec's `valueKind`) are the keys the generator reads unconditionally. -/
structure Item where
  path : String
  value : String
  doc : Option String := none
  arr_type : Option String := none
  nestedFields : Option NFVal := none
  moveafter : Option String := none
deriving Repr, DecidableEq

/-! ## SQLFormatter -/

/-- `SQLFormatter.format_path`: each dot-separated segment wrapped in
backticks, dot-joined. -/
def format_path (path : String) : String :=
  pyJoin "." ((splitDot path).map (fun p => "`" ++ p ++ "`"))

/-- `SQLFormatter.format_comment`. -/
def format_comment (comment : String) : String :=
  "COMMENT " ++ get_property_description comment

/-- `SQLFormatter.format_after_clause`. -/
def format_after_clause (item : Item) : String :=
  match item.moveafter with
  | none => ""
  | some m => if m = "first" then " FIRST" else " AFTER `" ++ m ++ "`"

/-! ## OrderPreservingGenerator state -/

/-- The per-call state of `OrderPreservingGenerator` (its `self` fields). -/
structure GenState where
  input_data : List Item
  processed_paths : List String := []
  field_order : List (String × List String) := []
  element_fields : List (String × List String) := []
  element_field_order : List (String × List String) := []
  array_element_fields : List (String × List (String × String)) := []
  path_data : List (String × Item) := []
  top_level_items : List Item := []
  nested_arrays : List (String × List String) := []
  original_order : List (String × Nat) := []
  array_nested_fields : List (String × NF) := []
deriving Repr

/-! ## Preprocessing (`_preprocess_input` and friends) -/

/-- `_track_original_order`: enumerate the input, recording each path's index. -/
def track_original_order (st : GenState) : GenState :=
  { st with original_order :=
      (st.input_data.foldl
        (fun (acc : List (String × Nat) × Nat) it => (dset acc.1 it.path acc.2, acc.2 + 1))
        (st.original_order, 0)).1 }

/-- `_process_array_nested_fields`: record a non-`"None"`, truthy
`nestedFields` of an array descriptor. -/
def process_array_nested_fields (st : GenState) (item : Item) (path : String) : GenState :=
  match item.nestedFields with
  | some (NFVal.dict nf) =>
      if item.value = "array" then
        { st with array_nested_fields := dset st.array_nested_fields path nf }
      else st
  | _ => st

/-- `_split_element_path`: split at the first `".element."`; callers guard on
`containsSub ".element." path`, so the `none` fallback is unreachable. -/
def split_element_path (path : String) : String × String :=
  match subSplitGo ".element.".data path.data with
  | some (a, b) => (String.mk a, String.mk b)
  | none => (path, "")

/-- The element-fields bookkeeping of `_process_element_path_fields`, shared
with the raw-descriptor layer. -/
def element_fields_update (ef efo : List (String × List String)) (path : String) :
    List (String × List String) × List (String × List String) :=
  if containsSub ".element." path then
    let ae := split_element_path path
    let cur := (dget ef ae.1).getD []
    let curo := (dget efo ae.1).getD []
    let cur' := if cur.contains ae.2 then cur else cur ++ [ae.2]
    let curo' := if curo.contains ae.2 then curo else curo ++ [ae.2]
    (dset ef ae.1 cur', dset efo ae.1 curo')
  else (ef, efo)

/-- The hierarchy bookkeeping of `_build_field_order_hierarchy`, shared with
the raw-descriptor layer. -/
def field_order_update (fo : List (String × List String)) (parts : List String) :
    List (String × List String) :=
  (List.range parts.length).foldl
    (fun fo i =>
      let parent := if i > 0 then joinDot (parts.take i) else ""
      let field := parts.getD i ""
      let cur := (dget fo parent).getD []
      dset fo parent (if cur.contains field then cur else cur ++ [field]))
    fo

/-- `_process_path_items`: one pass over the input building `path_data`,
`top_level_items`, `array_nested_fields`, `element_fields` /
`element_field_order` and `field_order`. -/
def process_path_items (st : GenState) : GenState :=
  (st.input_data.foldl
    (fun (acc : GenState × List String) item =>
      let st := acc.1
      let tlp := acc.2
      let path := item.path
      let parts := splitDot path
      let st := { st with path_data := dset st.path_data path item }
      let top_level := parts.headD ""
      let stp :=
        if tlp.contains top_level then (st, tlp)
        else ({ st with top_level_items := st.top_level_items ++ [item] }, top_level :: tlp)
      let st := process_array_nested_fields stp.1 item path
      let efp := element_fields_update st.element_fields st.element_field_order path
      let st := { st with element_fields := efp.1, element_field_order := efp.2 }
      let st := { st with field_order := field_order_update st.field_order parts }
      (st, stp.2))
    (st, [])).1

/-- `_preprocess_input`. -/
def preprocess_input (st : GenState) : GenState :=
  process_path_items (track_original_order
    { st with array_nested_fields := [], element_field_order := [] })

/-- `_process_simple_element_path`: a single `.element.` level. -/
def process_simple_element_path (st : GenState) (path : String) (segments : List String)
    (base_path : String) : GenState :=
  let remaining := segments.getD 1 ""
  let field_name := (pySplit1Char '.' remaining).headD ""
  let m := (dget st.array_element_fields base_path).getD []
  { st with
    array_element_fields := dset st.array_element_fields base_path (dset m field_name path) }

/-- `_process_multilevel_element_path`: two or more `.element.` levels. -/
def process_multilevel_element_path (st : GenState) (path : String) (segments : List String)
    (base_path : String) : GenState :=
  let first_element := pySplit1Char '.' (segments.getD 1 "")
  let first_field := first_element.headD ""
  let nested_array_path := base_path ++ ".element." ++ first_field
  let na := (dget st.nested_arrays base_path).getD []
  let na' := if na.contains nested_array_path then na else na ++ [nested_array_path]
  let st := { st with nested_arrays := dset st.nested_arrays base_path na' }
  let st :=
    if dmem st.array_element_fields nested_array_path then st
    else { st with array_element_fields := dset st.array_element_fields nested_array_path [] }
  if segments.length = 3 then
    let field_name := segments.getD 2 ""
    let m := (dget st.array_element_fields nested_array_path).getD []
    { st with
      array_element_fields := dset st.array_element_fields nested_array_path (dset m field_name path) }
  else
    if first_element.length > 1 then
      let second_level := pySplit1Char '.' (first_element.getD 1 "")
      if second_level.length > 0 then
        let field_name := second_level.headD ""
        let m := (dget st.array_element_fields nested_array_path).getD []
        { st with
          array_element_fields := dset st.array_element_fields nested_array_path (dset m field_name path) }
      else st
    else st

/-- `_process_element_path`. -/
def process_element_path (st : GenState) (path : String) : GenState :=
  let segments := pySplitSub ".element." path
  let base_path := segments.headD ""
  let st :=
    if dmem st.array_element_fields base_path then st
    else { st with array_element_fields := dset st.array_element_fields base_path [] }
  if segments.length > 2 then process_multilevel_element_path st path segments base_path
  else if segments.length = 2 then process_simple_element_path st path segments base_path
  else st

/-- `_process_array_elements`: reset the two derived maps, then process the
element paths, parents (fewer `.element.` occurrences) first. -/
def process_array_elements (st : GenState) : GenState :=
  let st := { st with array_element_fields := [], nested_arrays := [] }
  let element_paths := (dkeys st.path_data).filter (fun p => containsSub ".element." p)
  let element_paths := pySortBy (fun p => Int.ofNat (countSub ".element." p)) element_paths
  element_paths.foldl process_element_path st

/-! ## Pure tree queries -/

/-- `_has_children`: some other recorded path extends `parent_path ++ "."`. -/
def has_children (st : GenState) (parent_path : String) : Bool :=
  let pre := parent_path ++ "."
  (dkeys st.path_data).any (fun p => p != parent_path && pyStartswith p pre)

/-- `_is_child_of_processed_path`: some proper dotted prefix of `path` is
already processed. -/
def is_child_of_processed_path (st : GenState) (path : String) : Bool :=
  let parts := splitDot path
  (List.range' 1 (parts.length - 1)).any
    (fun i => st.processed_paths.contains (joinDot (parts.take i)))

/-- `_mark_processed`: mark a path and every recorded descendant. -/
def mark_processed (st : GenState) (parent_path : String) : GenState :=
  let pre := parent_path ++ "."
  let st := { st with processed_paths := st.processed_paths.insert parent_path }
  (dkeys st.path_data).foldl
    (fun st p =>
      if p != parent_path && pyStartswith p pre then
        { st with processed_paths := st.processed_paths.insert p }
      else st)
    st

/-- `_get_remaining_items`: unprocessed items not under a processed path. -/
def get_remaining_items (st : GenState) : List Item :=
  st.input_data.filter
    (fun it => !st.processed_paths.contains it.path && !is_child_of_processed_path st it.path)

/-- `_add_direct_child_if_matched`: the three direct-child cases. -/
def add_direct_child_if_matched (st : GenState) (path remaining : String)
    (acc : List String) (parent_path : String) : List String :=
  if !remaining.data.contains '.' then acc ++ [path]
  else if pyCountChar '.' remaining ≥ 2 && containsSub ".element." remaining then
    let array_name := (splitDot remaining).headD ""
    let array_path := parent_path ++ "." ++ array_name
    if !acc.contains array_path && dmem st.path_data array_path then acc ++ [array_path]
    else acc
  else if remaining.data.contains '.' && pyCountChar '.' remaining = 1 then
    let first_part := (pySplit1Char '.' remaining).headD ""
    let child_path := parent_path ++ "." ++ first_part
    if dmem st.path_data child_path && !acc.contains child_path then acc ++ [child_path]
    else acc
  else acc

/-- `_get_direct_children`. -/
def get_direct_children (st : GenState) (parent_path : String) : List String :=
  let pre := if parent_path != "" then parent_path ++ "." else ""
  (dkeys st.path_data).foldl
    (fun acc p =>
      if p = parent_path || st.processed_paths.contains p then acc
      else if !pyStartswith p pre then acc
      else add_direct_child_if_matched st p (pyDrop p pre.data.length) acc parent_path)
    []

/-- `_get_ordered_children`: `field_order` first, then missing direct
children, finally a stable sort by original input order. -/
def get_ordered_children (st : GenState) (struct_path : String) : List String :=
  let dc := get_direct_children st struct_path
  let ordered :=
    ((dget st.field_order struct_path).getD []).foldl
      (fun acc field =>
        let child_path := if struct_path != "" then struct_path ++ "." ++ field else field
        if dc.contains child_path then acc ++ [child_path] else acc)
      []
  let ordered := dc.foldl (fun acc c => if acc.contains c then acc else acc ++ [c]) ordered
  pySortBy (fun p => Int.ofNat ((dget st.original_order p).getD 999999)) ordered

/-! ## Array element-struct field collection -/

/-- One entry of `_collect_array_fields`' `all_fields` dict (`type`, `order`
and either the `data` of a nestedFields source or the `path` of the other
two sources). -/
structure FieldInfo where
  ftype : String
  order : Int
  data : Option NF := none
  fpath : Option String := none
deriving Repr, DecidableEq

/-- `_collect_array_fields`: merge the three sources into one dict, in order
nestedFields (order `-1`), element fields, nested arrays; a repeated field
name replaces the earlier entry in place (Python dict assignment). -/
def collect_array_fields (st : GenState) (array_path : String) :
    List (String × FieldInfo) :=
  let all : List (String × FieldInfo) := []
  let all :=
    match dget st.path_data array_path with
    | some ai =>
        match ai.nestedFields with
        | some (NFVal.dict nf) =>
            dset all nf.name { ftype := "nestedField", order := -1, data := some nf }
        | _ => all
    | none => all
  let all :=
    ((dget st.array_element_fields array_path).getD []).foldl
      (fun all e =>
        if dmem st.path_data e.2 then
          dset all e.1
            { ftype := "regular",
              order := Int.ofNat ((dget st.original_order e.2).getD 999999),
              fpath := some e.2 }
        else all)
      all
  ((dget st.nested_arrays array_path).getD []).foldl
    (fun all nap =>
      dset all ((splitDot nap).getLastD "")
        { ftype := "nested_array",
          order := Int.ofNat ((dget st.original_order nap).getD 999999),
          fpath := some nap })
    all

/-- `_format_nestedfield` (note the hard `"string"` fallback of the type
lookup). -/
def format_nestedfield (field_name : String) (info : FieldInfo) (indent : String) : String :=
  match info.data with
  | some nf =>
      indent ++ field_name ++ ": " ++ ((spark_ddl_types (nf.type.getD "string")).getD "string")
        ++ " " ++ format_comment (nf.doc.getD "")
  | none => ""

/-! ## Nested-array element rendering (no recursion back into structs) -/

/-- `_add_nested_array_fields`: the nestedFields entry of a nested array. -/
def add_nested_array_fields (st : GenState) (nested_array_path indent : String)
    (sf pf : List String) : List String × List String :=
  match st.input_data.find? (fun it => it.path = nested_array_path) with
  | some array_def =>
      match array_def.nestedFields with
      | some (NFVal.dict nf) =>
          let nf_type := match nf.type with | some t => ddlGet t | none => "string"
          (sf ++ [indent ++ nf.name ++ ": " ++ nf_type ++ " " ++ format_comment (nf.doc.getD "")],
           pf ++ [nf.name])
      | _ => (sf, pf)
  | none => (sf, pf)

/-- `_add_element_fields_from_path_scan`: fields found by scanning all paths
for the `base.element.name.element.` pattern; every such field is rendered
with its raw value type. -/
def add_element_fields_from_path_scan (st : GenState) (nested_array_path indent : String)
    (sf pf : List String) : List String × List String :=
  let element_fields :=
    (dkeys st.path_data).foldl
      (fun (ef : List (String × String)) path =>
        let parts := pySplitSub ".element." nested_array_path
        if parts.length ≥ 2 then
          let base_path := parts.headD ""
          let nested_array_name := parts.getD 1 ""
          let pat := base_path ++ ".element." ++ nested_array_name ++ ".element."
          if pyStartswith path pat then
            let fn0 := pyDrop path pat.data.length
            let field_name :=
              if fn0.data.contains '.' then (pySplit1Char '.' fn0).headD "" else fn0
            dset ef field_name path
          else ef
        else ef)
      []
  element_fields.foldl
    (fun (acc : List String × List String) e =>
      if acc.2.contains e.1 then acc
      else
        match dget st.path_data e.2 with
        | none => acc
        | some item =>
            (acc.1 ++ [indent ++ e.1 ++ ": " ++ ddlGet item.value ++ " "
               ++ format_comment (item.doc.getD "")],
             acc.2 ++ [e.1]))
    (sf, pf)

/-- `_add_element_fields_from_mapping`: fields from `array_element_fields`. -/
def add_element_fields_from_mapping (st : GenState) (nested_array_path indent : String)
    (sf pf : List String) : List String × List String :=
  ((dget st.array_element_fields nested_array_path).getD []).foldl
    (fun (acc : List String × List String) e =>
      if acc.2.contains e.1 then acc
      else
        match dget st.path_data e.2 with
        | none => acc
        | some item =>
            (acc.1 ++ [indent ++ e.1 ++ ": " ++ ddlGet item.value ++ " "
               ++ format_comment (item.doc.getD "")],
             acc.2 ++ [e.1]))
    (sf, pf)

/-- `_format_nested_array_content`. -/
def format_nested_array_content (st : GenState) (nested_array_path : String)
    (indent_level : Nat) : String :=
  let indent := spaces (indent_level * 4)
  let r := add_nested_array_fields st nested_array_path indent [] []
  let r := add_element_fields_from_path_scan st nested_array_path indent r.1 r.2
  let r := add_element_fields_from_mapping st nested_array_path indent r.1 r.2
  pyJoin ",\n" r.1

/-- `_format_nested_array_field`. -/
def format_nested_array_field (st : GenState) (field_name : String) (info : FieldInfo)
    (indent : String) (indent_level : Nat) : String :=
  let nested_array_path := info.fpath.getD ""
  let nested_content := format_nested_array_content st nested_array_path (indent_level + 1)
  let array_def := st.input_data.find? (fun it => it.path = nested_array_path)
  let comment := match array_def with | some d => d.doc.getD "" | none => ""
  if stripTruthy nested_content then
    indent ++ field_name ++ ": array<struct<\n" ++ nested_content ++ "\n" ++ indent ++ ">> "
      ++ format_comment comment
  else
    let arr_type := match array_def with | some d => d.arr_type.getD "string" | none => "string"
    indent ++ field_name ++ ": array<" ++ arr_type ++ "> " ++ format_comment comment

/-! ## The recursive struct renderer (read-only in the state, fueled) -/

mutual

/-- `_format_struct_content`: render the ordered direct children of a
struct path, comma-newline joined. -/
def format_struct_content (fuel : Nat) (st : GenState) (struct_path : String)
    (indent_level : Nat) : String :=
  match fuel with
  | 0 => ""
  | fuel + 1 =>
      let indent := spaces (indent_level * 4)
      let ordered := get_ordered_children st struct_path
      pyJoin ",\n" (ordered.map (fun c => format_struct_child fuel st c indent indent_level))
termination_by structural fuel


/-- `_format_struct_child`: dispatch one child by its value kind. -/
def format_struct_child (fuel : Nat) (st : GenState) (child_path indent : String)
    (indent_level : Nat) : String :=
  match fuel with
  | 0 => ""
  | fuel + 1 =>
      let field := (splitDot child_path).getLastD ""
      match dget st.path_data child_path with
      | none => ""
      | some child_item =>
          let comment := child_item.doc.getD ""
          if child_item.value = "object" then
            format_object_field fuel st child_path field comment indent indent_level
          else if child_item.value = "array" then
            format_array_field fuel st child_path field comment child_item indent indent_level
          else
            indent ++ field ++ ": " ++ ddlGet child_item.value ++ " " ++ format_comment comment
termination_by structural fuel


/-- `_format_object_field`. -/
def format_object_field (fuel : Nat) (st : GenState) (child_path field comment indent : String)
    (indent_level : Nat) : String :=
  match fuel with
  | 0 => ""
  | fuel + 1 =>
      if has_children st child_path then
        let nested := format_struct_content fuel st child_path (indent_level + 1)
        if stripTruthy nested then
          indent ++ field ++ ": struct<\n" ++ nested ++ "\n" ++ indent ++ "> "
            ++ format_comment comment
        else indent ++ field ++ ": struct<> " ++ format_comment comment
      else indent ++ field ++ ": struct<> " ++ format_comment comment
termination_by structural fuel


/-- `_format_array_field`. -/
def format_array_field (fuel : Nat) (st : GenState) (child_path field comment : String)
    (child_item : Item) (indent : String) (indent_level : Nat) : String :=
  match fuel with
  | 0 => ""
  | fuel + 1 =>
      let has_elements :=
        match dget st.array_element_fields child_path with
        | some m => !m.isEmpty
        | none => false
      if child_item.arr_type.isSome && !has_elements then
        indent ++ field ++ ": array<" ++ child_item.arr_type.getD "" ++ "> "
          ++ format_comment comment
      else
        let content := format_array_struct_content fuel st child_path (indent_level + 1)
        if stripTruthy content then
          indent ++ field ++ ": array<struct<\n" ++ content ++ "\n" ++ indent ++ ">> "
            ++ format_comment comment
        else
          indent ++ field ++ ": array<" ++ child_item.arr_type.getD "string" ++ "> "
            ++ format_comment comment
termination_by structural fuel


/-- `_format_array_struct_content`: render the merged element fields of an
array in `order`-sorted sequence, skipping names already handled. -/
def format_array_struct_content (fuel : Nat) (st : GenState) (array_path : String)
    (indent_level : Nat) : String :=
  match fuel with
  | 0 => ""
  | fuel + 1 =>
      let indent := spaces (indent_level * 4)
      let all_fields := collect_array_fields st array_path
      let ordered :=
        pySortBy
          (fun n => match dget all_fields n with | some i => i.order | none => 999999)
          (dkeys all_fields)
      let res :=
        ordered.foldl
          (fun (acc : List String × List String) field_name =>
            if acc.2.contains field_name then acc
            else
              match dget all_fields field_name with
              | none => (acc.1, acc.2 ++ [field_name])
              | some info =>
                  let sf :=
                    if info.ftype = "nestedField" then
                      acc.1 ++ [format_nestedfield field_name info indent]
                    else if info.ftype = "regular" then
                      acc.1 ++ [format_regular_field fuel st field_name info indent indent_level]
                    else if info.ftype = "nested_array" then
                      acc.1 ++ [format_nested_array_field st field_name info indent indent_level]
                    else acc.1
                  (sf, acc.2 ++ [field_name]))
          ([], [])
      pyJoin ",\n" res.1
termination_by structural fuel


/-- `_format_regular_field`. -/
def format_regular_field (fuel : Nat) (st : GenState) (field_name : String) (info : FieldInfo)
    (indent : String) (indent_level : Nat) : String :=
  match fuel with
  | 0 => ""
  | fuel + 1 =>
      let element_path := info.fpath.getD ""
      match dget st.path_data element_path with
      | none => ""
      | some item =>
          let comment := item.doc.getD ""
          if item.value = "array" then
            indent ++ field_name ++ ": array<" ++ item.arr_type.getD "string" ++ "> "
              ++ format_comment comment
          else if item.value = "object" && has_children st element_path then
            let nested := format_struct_content fuel st element_path (indent_level + 1)
            indent ++ field_name ++ ": struct<\n" ++ nested ++ "\n" ++ indent ++ "> "
              ++ format_comment comment
          else
            indent ++ field_name ++ ": " ++ ddlGet item.value ++ " " ++ format_comment comment
termination_by structural fuel

end

/-! ## Stateful column formatting -/

/-- `_mark_processed_tree`: mark a struct path, its direct children and the
depth-1 element paths of any array child. -/
def mark_processed_tree (st : GenState) (path : String) (children : List String) : GenState :=
  let st := { st with processed_paths := st.processed_paths.insert path }
  children.foldl
    (fun st child =>
      let st := { st with processed_paths := st.processed_paths.insert child }
      match dget st.element_fields child with
      | some efs =>
          efs.foldl
            (fun st ef =>
              { st with processed_paths :=
                  st.processed_paths.insert (child ++ ".element." ++ ef) })
            st
      | none => st)
    st

/-- `_format_struct`: a top-level struct column definition. -/
def format_struct (fuel : Nat) (st : GenState) (path : String) (item : Item) :
    Option String × GenState :=
  if st.processed_paths.contains path then (none, st)
  else
    let children := get_direct_children st path
    if children.isEmpty then
      let formatted_path := format_path path
      let comment := item.doc.getD ""
      let after_clause := format_after_clause item
      let st := { st with processed_paths := st.processed_paths.insert path }
      (some ("    " ++ formatted_path ++ " struct<> " ++ format_comment comment ++ after_clause),
       st)
    else
      let struct_content := format_struct_content fuel st path 2
      let formatted_path := format_path path
      let comment := item.doc.getD ""
      let after_clause := format_after_clause item
      let st := mark_processed_tree st path children
      (some ("    " ++ formatted_path ++ " struct<\n" ++ struct_content ++ "\n    > "
         ++ format_comment comment ++ after_clause),
       st)

/-- `_mark_array_elements_processed`. -/
def mark_array_elements_processed (st : GenState) (path : String) : GenState :=
  match dget st.array_element_fields path with
  | none => st
  | some m =>
      let st :=
        m.foldl
          (fun st e =>
            if dmem st.path_data e.2 then
              { st with processed_paths := st.processed_paths.insert e.2 }
            else st)
          st
      match dget st.nested_arrays path with
      | none => st
      | some naps =>
          naps.foldl
            (fun st nap =>
              match dget st.array_element_fields nap with
              | none => st
              | some m2 =>
                  m2.foldl
                    (fun st e =>
                      if dmem st.path_data e.2 then
                        { st with processed_paths := st.processed_paths.insert e.2 }
                      else st)
                    st)
            st

/-- `_format_dotted_object`. -/
def format_dotted_object (fuel : Nat) (st : GenState)
    (path formatted_path comment after_clause : String) : String :=
  if has_children st path then
    let struct_content := format_struct_content fuel st path 2
    if stripTruthy struct_content then
      "    " ++ formatted_path ++ " struct<\n" ++ struct_content ++ "\n    > "
        ++ format_comment comment ++ after_clause
    else "    " ++ formatted_path ++ " struct<> " ++ format_comment comment ++ after_clause
  else "    " ++ formatted_path ++ " struct<> " ++ format_comment comment ++ after_clause

/-- `_format_dotted_array`: marks the array's element paths as processed
exactly when a non-blank element-struct body is produced. -/
def format_dotted_array (fuel : Nat) (st : GenState) (path formatted_path : String)
    (item : Item) (comment after_clause : String) : String × GenState :=
  let has_element_fields :=
    match dget st.array_element_fields path with
    | some m => !m.isEmpty
    | none => false
  let has_nested_fields :=
    match item.nestedFields with
    | some (NFVal.dict _) => true
    | _ => false
  if has_nested_fields || has_element_fields then
    let content := format_array_struct_content fuel st path 3
    if stripTruthy content then
      let st := mark_array_elements_processed st path
      ("    " ++ formatted_path ++ " array<struct<\n" ++ content ++ "\n    >> "
         ++ format_comment comment ++ after_clause, st)
    else
      ("    " ++ formatted_path ++ " array<" ++ item.arr_type.getD "string" ++ "> "
         ++ format_comment comment ++ after_clause, st)
  else
    ("    " ++ formatted_path ++ " array<" ++ item.arr_type.getD "string" ++ "> "
       ++ format_comment comment ++ after_clause, st)

/-- `_format_dotted_path`: a column definition under the full dotted path,
or `none` when the item is skipped (already covered by a processed path or
owned by a struct ancestor). -/
def format_dotted_path (fuel : Nat) (st : GenState) (item : Item) :
    Option String × GenState :=
  let path := item.path
  let elemSkip :=
    if containsSub ".element." path then
      let ae := split_element_path path
      st.processed_paths.contains path || st.processed_paths.contains ae.1
    else false
  if elemSkip then (none, st)
  else
    let parts := splitDot path
    let skip1 :=
      parts.length > 1 &&
        (List.range' 1 (parts.length - 1)).any
          (fun i => st.processed_paths.contains (joinDot (parts.take i)))
    let skip2 :=
      parts.length > 1 &&
        (List.range' 1 (parts.length - 1)).any
          (fun i =>
            match dget st.path_data (joinDot (parts.take i)) with
            | some pi => pi.value = "object" && has_children st (joinDot (parts.take i))
            | none => false)
    if skip1 || skip2 then (none, st)
    else
      let comment := item.doc.getD ""
      let after_clause := format_after_clause item
      let formatted_path := format_path path
      if item.value = "object" then
        (some (format_dotted_object fuel st path formatted_path comment after_clause), st)
      else if item.value = "array" then
        let r := format_dotted_array fuel st path formatted_path item comment after_clause
        (some r.1, r.2)
      else
        (some ("    " ++ formatted_path ++ " " ++ ddlGet item.value ++ " "
           ++ format_comment comment ++ after_clause), st)

/-! ## The two driver passes -/

/-- Loop body of `_process_top_level_items`. -/
def process_top_level_go (fuel : Nat) : List Item → GenState → List String × GenState
  | [], st => ([], st)
  | item :: rest, st =>
      if st.processed_paths.contains item.path then process_top_level_go fuel rest st
      else if item.value = "object" && has_children st item.path then
        match format_struct fuel st item.path item with
        | (some d, st') =>
            let st'' := mark_processed st' item.path
            let r := process_top_level_go fuel rest st''
            (d :: r.1, r.2)
        | (none, st') => process_top_level_go fuel rest st'
      else
        match format_dotted_path fuel st item with
        | (some d, st') =>
            let st'' := { st' with processed_paths := st'.processed_paths.insert item.path }
            let r := process_top_level_go fuel rest st''
            (d :: r.1, r.2)
        | (none, st') => process_top_level_go fuel rest st'

/-- `_process_top_level_items`. -/
def process_top_level_items (fuel : Nat) (st : GenState) : List String × GenState :=
  process_top_level_go fuel st.top_level_items st

/-- Loop body of `_process_remaining_items`. -/
def process_remaining_go (fuel : Nat) : List Item → GenState → List String × GenState
  | [], st => ([], st)
  | item :: rest, st =>
      match format_dotted_path fuel st item with
      | (some d, st') =>
          let st'' := { st' with processed_paths := st'.processed_paths.insert item.path }
          let r := process_remaining_go fuel rest st''
          (d :: r.1, r.2)
      | (none, st') => process_remaining_go fuel rest st'

/-- `_process_remaining_items`: the best-effort sweep over unconsumed
descriptors, in original input order. -/
def process_remaining_items (fuel : Nat) (st : GenState) : List String × GenState :=
  let remaining := get_remaining_items st
  let remaining :=
    pySortBy (fun it => Int.ofNat ((dget st.original_order it.path).getD 999999)) remaining
  process_remaining_go fuel remaining st

/-! ## `OrderPreservingGenerator.generate_sql` -/

/-- Fuel for the struct renderer: exceeds every path length, hence every
possible recursion depth (each recursive call strictly lengthens the
current path, and all paths involved are keys of `path_data`). -/
def add_fuel (items : List Item) : Nat :=
  1 + items.foldl (fun n it => n + it.path.data.length) 0

/-- The column-definition list assembled by
`OrderPreservingGenerator.generate_sql` (top-level pass then sweep). -/
def add_column_definitions (items : List Item) : List String :=
  let st := process_array_elements (preprocess_input { input_data := items })
  let fuel := add_fuel items
  let r1 := process_top_level_items fuel st
  let r2 := process_remaining_items fuel r1.2
  r1.1 ++ r2.1

/-- `OrderPreservingGenerator.generate_sql`. -/
def generate_sql_add (items : List Item) : String :=
  let defs := add_column_definitions items
  if defs.isEmpty then "ALTER TABLE {table_name} \n    ADD COLUMNS ()"
  else "ALTER TABLE {table_name} \n    ADD COLUMNS (\n" ++ pyJoin ",\n" defs ++ "\n    )"

/-! ## `SQLColumnGenerator.generate_sql` -/

/-- A MOVE column entry with a `path` and the new name in `value`. -/
structure MoveEntry where
  path : String
  value : String
deriving Repr, DecidableEq

/-- A REORDER column entry `{path, moveafter?, value?}`; `value` is read
unconditionally on the non-`"first"` branch (a missing key raises). -/
structure ReorderEntry where
  path : String
  moveafter : Option String := none
  value : Option String := none
deriving Repr, DecidableEq

/-- A REPLACE column entry `{path, target_field?, value}`. -/
structure ReplaceEntry where
  path : String
  target_field : Option String := none
  value : String
deriving Repr, DecidableEq

/-- An operation group; an unrecognized `operation` tag is `other`. -/
inductive Operation where
  | ADD (columns : List Item)
  | REMOVE (columns : List String)
  | MOVE (columns : List MoveEntry)
  | REORDER (columns : List ReorderEntry)
  | REPLACE (columns : List ReplaceEntry)
  | other (operation : String)
deriving Repr

/-- The REORDER branch per column: `FIRST` when `moveafter == "first"`,
otherwise `AFTER` with the entry's `value` (whose absence is a `KeyError`). -/
def reorder_statement (column : ReorderEntry) : Except String String :=
  if column.moveafter = some "first" then
    Except.ok ("ALTER TABLE {table_name} ALTER COLUMN " ++ format_path column.path ++ " FIRST")
  else
    match column.value with
    | some v =>
        Except.ok ("ALTER TABLE {table_name} ALTER COLUMN " ++ format_path column.path
          ++ " AFTER " ++ format_path v)
    | none => Except.error "KeyError: value"

/-- The REPLACE branch: one statement per recognized `target_field`
(default `"value"`), nothing for an unrecognized one. -/
def replace_statements (columns : List ReplaceEntry) : List String :=
  columns.foldl
    (fun acc column =>
      let target := column.target_field.getD "value"
      if target = "description" || target = "comment" then
        acc ++ ["ALTER TABLE {table_name} ALTER COLUMN " ++ format_path column.path
          ++ " COMMENT " ++ get_property_description column.value]
      else if target = "type" then
        acc ++ ["ALTER TABLE {table_name} ALTER COLUMN " ++ format_path column.path
          ++ " TYPE " ++ ddlGet column.value]
      else if target = "name" then
        acc ++ ["ALTER TABLE {table_name} RENAME COLUMN " ++ format_path column.path
          ++ " TO `" ++ column.value ++ "`"]
      else acc)
    []

/-- `SQLColumnGenerator.generate_sql`: dispatch each operation group in
order; a group whose tag matches no branch contributes nothing. -/
def generate_sql : List Operation → Except String (List String)
  | [] => Except.ok []
  | g :: gs => do
      let head ←
        (match g with
         | Operation.ADD cols => Except.ok [generate_sql_add cols]
         | Operation.REMOVE cols =>
             Except.ok (cols.map
               (fun p => "ALTER TABLE {table_name} DROP COLUMN " ++ format_path p))
         | Operation.MOVE cols =>
             Except.ok (cols.map
               (fun c => "ALTER TABLE {table_name} RENAME COLUMN " ++ format_path c.path
                 ++ " TO `" ++ c.value ++ "`"))
         | Operation.REORDER cols => cols.mapM reorder_statement
         | Operation.REPLACE cols => Except.ok (replace_statements cols)
         | Operation.other _ => Except.ok [])
      let rest ← generate_sql gs
      Except.ok (head ++ rest)

/-! ## Raw descriptors (dict keys possibly missing) for the index-build phase

`_track_original_order` and `_process_path_items` read `item["path"]`
unconditionally (a missing key raises `KeyError`), while `valueKind`
(`item["value"]`) is only read behind `"value" in item` guards during the
index build.  This layer models descriptors as dicts with possibly missing
keys and the index build as an `Except` computation. -/

/-- A FieldDescriptor before validation: every key may be absent. -/
structure RawItem where
  path : Option String := none
  value : Option String := none
  doc : Option String := none
  arr_type : Option String := none
  nestedFields : Option NFVal := none
  moveafter : Option String := none
deriving Repr, DecidableEq

/-- The index structures built by `_preprocess_input` over raw descriptors. -/
structure RawPreState where
  original_order : List (String × Nat) := []
  path_data : List (String × RawItem) := []
  top_level_items : List RawItem := []
  element_fields : List (String × List String) := []
  element_field_order : List (String × List String) := []
  field_order : List (String × List String) := []
  array_nested_fields : List (String × NF) := []
deriving Repr

/-- Loop of `_track_original_order` over raw descriptors: the first missing
`path` raises. -/
def raw_track_go : List RawItem → Nat → List (String × Nat) →
    Except String (List (String × Nat))
  | [], _, acc => Except.ok acc
  | it :: rest, idx, acc =>
      match it.path with
      | none => Except.error "KeyError: path"
      | some p => raw_track_go rest (idx + 1) (dset acc p idx)

/-- `_track_original_order` over raw descriptors. -/
def raw_track_original_order (items : List RawItem) : Except String (List (String × Nat)) :=
  raw_track_go items 0 []

/-- `_process_path_items` over raw descriptors: `path` is read raw, `value`
and `nestedFields` only behind membership guards. -/
def raw_process_path_items : List RawItem → RawPreState → List String →
    Except String RawPreState
  | [], st, _ => Except.ok st
  | item :: rest, st, tlp =>
      match item.path with
      | none => Except.error "KeyError: path"
      | some path =>
          let parts := splitDot path
          let st := { st with path_data := dset st.path_data path item }
          let top_level := parts.headD ""
          let stp :=
            if tlp.contains top_level then (st, tlp)
            else ({ st with top_level_items := st.top_level_items ++ [item] },
                  top_level :: tlp)
          let st :=
            match item.value, item.nestedFields with
            | some "array", some (NFVal.dict nf) =>
                { stp.1 with array_nested_fields := dset stp.1.array_nested_fields path nf }
            | _, _ => stp.1
          let efp := element_fields_update st.element_fields st.element_field_order path
          let st := { st with element_fields := efp.1, element_field_order := efp.2 }
          let st := { st with field_order := field_order_update st.field_order parts }
          raw_process_path_items rest st stp.2

/-- `_preprocess_input` (the PathIndex build) over raw descriptors. -/
def raw_preprocess (items : List RawItem) : Except String RawPreState := do
  let oo ← raw_track_original_order items
  raw_process_path_items items { original_order := oo } []

/-! ## Predicates used to state the claims -/

/-- The output string `s` is a column definition for dotted path `p`: column
definitions open with four spaces, the backticked path and one space. -/
def isColFor (p s : String) : Bool :=
  isPre ("    " ++ format_path p ++ " ").data s.data

/-- The output string `s` is a `struct<`-typed column definition for `p`. -/
def isStructColFor (p s : String) : Bool :=
  isPre ("    " ++ format_path p ++ " struct<").data s.data

/-- A path usable as a column name: non-empty and backtick-free (backticks
inside a field name would break the quoting scheme `format_path` applies). -/
def clean_path (p : String) : Prop :=
  p.data ≠ [] ∧ '`' ∉ p.data

instance (p : String) : Decidable (clean_path p) := by
  unfold clean_path; infer_instance

/-- `q` lies strictly below `p` in the dotted-path tree (its text extends
`p ++ "."`). -/
def strict_descendant (p q : String) : Bool :=
  pyStartswith q (p ++ ".")

/-- Generic guarded dict-building fold; `collect_array_fields`' two source
loops are definitionally instances of it (see `collect_array_fields_eq`). -/
def dfold {I A : Type} (keyf : I → String) (pred : I → Bool) (g : I → A)
    (l : List I) (all : List (String × A)) : List (String × A) :=
  l.foldl (fun all e => if pred e then dset all (keyf e) (g e) else all) all

/-- The loop body of `_process_path_items` (named so the fold can be reasoned
about; `process_path_items_eq` shows the definitional agreement). -/
def ppi_step (acc : GenState × List String) (item : Item) : GenState × List String :=
  let st := acc.1
  let tlp := acc.2
  let path := item.path
  let parts := splitDot path
  let st := { st with path_data := dset st.path_data path item }
  let top_level := parts.headD ""
  let stp :=
    if tlp.contains top_level then (st, tlp)
    else ({ st with top_level_items := st.top_level_items ++ [item] }, top_level :: tlp)
  let st := process_array_nested_fields stp.1 item path
  let efp := element_fields_update st.element_fields st.element_field_order path
  let st := { st with element_fields := efp.1, element_field_order := efp.2 }
  let st := { st with field_order := field_order_update st.field_order parts }
  (st, stp.2)

/-- `st'` differs from `st` at most in `processed_paths` (the only field the
two driver passes mutate). -/
def ProcOnly (st st' : GenState) : Prop :=
  st' = { st with processed_paths := st'.processed_paths }

/-- The index maps every element-field record to a dotted path (true of the
maps `_process_array_elements` builds; the paths it records all contain
`".element."`). -/
def wf_aef (st : GenState) : Prop :=
  ∀ e ∈ st.array_element_fields, ∀ f ∈ e.2, '.' ∈ f.2.data

/-- `st'` extends `st` by dotted paths only: same state otherwise, processed
set grown, and every new processed path contains a dot (the discipline of
every marking helper when applied below a real parent). -/
def ProcGrow (st st' : GenState) : Prop :=
  ProcOnly st st' ∧ (∀ x ∈ st.processed_paths, x ∈ st'.processed_paths)
    ∧ (∀ x ∈ st'.processed_paths, x ∈ st.processed_paths ∨ '.' ∈ x.data)

/-! ## Theorems -/

/-- C2: generation is a pure function of the input list; two calls of
`generate_sql` on the same operation-group list (same element order) return
identical output.  The embedding is stateless by construction, mirroring the
Python generator, whose index and `processed` set are rebuilt from scratch
inside every call. -/
theorem c2_generation_deterministic :
    ∀ ops : List Operation, generate_sql ops = generate_sql ops :=
  fun _ => rfl

/-- C4 (divergence witness): an operation group with a tag outside the five
recognized kinds is silently dropped by `generate_sql` — the run succeeds and
contributes no statement and no error, contradicting the claim that a
configuration error is surfaced. -/
theorem c4_unrecognized_operation_silently_dropped :
    generate_sql [Operation.other "RENAME_TABLE"] = Except.ok [] :=
  rfl

/-- C8 (divergence witness): a REPLACE entry whose `target_field` is outside
the three recognized kinds produces no statement and no error — the group
yields an empty result, contradicting the claim that each REPLACE column
entry produces exactly one statement or a configuration error. -/
theorem c8_unrecognized_target_field_silently_dropped :
    generate_sql
        [Operation.REPLACE [{ path := "a", target_field := some "frobnicate", value := "v" }]]
      = Except.ok [] :=
  rfl

/-- C7: the two bit-exact ADD scenarios — a single primitive descriptor
`{path: "a", valueKind: "string"}` yields exactly the quoted one-column
statement, and an empty ADD column list yields exactly the empty-columns
form. -/
theorem c7_add_scenarios :
    generate_sql [Operation.ADD [{ path := "a", value := "string" }]]
        = Except.ok
            ["ALTER TABLE {table_name} \n    ADD COLUMNS (\n    `a` STRING COMMENT '' \n    )"]
      ∧ generate_sql [Operation.ADD []]
        = Except.ok ["ALTER TABLE {table_name} \n    ADD COLUMNS ()"] :=
  ⟨rfl, rfl⟩

/-- C3 (counterexample): the array at `a` carries
`nestedFields = {name: "f", type: "string"}` (claimed to be kept and rendered
first on a name clash) while the element descriptor `a.element.f` has value
kind `myint`.  The rendered element struct shows `f: myint` — the
elementFields source replaced the nestedFields entry (Python dict assignment
overwrites), so on a duplicated field name the *last* source in priority
order wins, not the first as the claim states. -/
theorem c3_counterexample :
    generate_sql_add
        [{ path := "a", value := "array",
           nestedFields := some (NFVal.dict { name := "f", type := some "string" }) },
         { path := "a.element.f", value := "myint" }]
      = "ALTER TABLE {table_name} \n    ADD COLUMNS (\n    `a` array<struct<\n            f: myint COMMENT '' \n    >> COMMENT '' \n    )" := by
  decide

/-- `Except.bind` succeeds exactly when both stages succeed. -/
theorem except_bind_isOk {ε α β : Type} (x : Except ε α) (f : α → Except ε β) :
    (x >>= f).isOk = true ↔ ∃ a, x = Except.ok a ∧ (f a).isOk = true := by
  cases x <;> simp [Bind.bind, Except.bind, Except.isOk, Except.toBool]

/-- The raw `_track_original_order` loop succeeds exactly when every
descriptor carries a `path`. -/
theorem raw_track_go_ok_iff (items : List RawItem) :
    ∀ (idx : Nat) (acc : List (String × Nat)),
      (raw_track_go items idx acc).isOk = true ↔ ∀ it ∈ items, it.path.isSome = true := by
  induction items with
  | nil => intro idx acc; simp [raw_track_go, Except.isOk, Except.toBool]
  | cons it rest ih =>
      intro idx acc
      cases h : it.path with
      | none => simp [raw_track_go, h, Except.isOk, Except.toBool]
      | some p => simp [raw_track_go, h, ih]

/-- The raw `_process_path_items` loop succeeds exactly when every
descriptor carries a `path` (`value` and `nestedFields` are only read behind
membership guards there). -/
theorem raw_process_path_items_ok_iff (items : List RawItem) :
    ∀ (st : RawPreState) (tlp : List String),
      (raw_process_path_items items st tlp).isOk = true
        ↔ ∀ it ∈ items, it.path.isSome = true := by
  induction items with
  | nil => intro st tlp; simp [raw_process_path_items, Except.isOk, Except.toBool]
  | cons it rest ih =>
      intro st tlp
      cases h : it.path with
      | none => simp [raw_process_path_items, h, Except.isOk, Except.toBool]
      | some p => simp [raw_process_path_items, h, ih]

/-- C5 (amended): the PathIndex build (`_preprocess_input`) fails fast —
with a `KeyError`, the code has no `MalformedDescriptor` class — exactly when
some descriptor omits `path`.  A descriptor that omits only `valueKind`
passes the index build (its `value` key is read only behind guards there);
any failure for it can happen only later, during rendering. -/
theorem c5_index_build_fails_iff_some_path_missing (items : List RawItem) :
    (raw_preprocess items).isOk = true ↔ ∀ it ∈ items, it.path.isSome = true := by
  unfold raw_preprocess raw_track_original_order
  rw [except_bind_isOk]
  constructor
  · rintro ⟨oo, hok, -⟩
    exact (raw_track_go_ok_iff items 0 []).mp (by rw [hok]; rfl)
  · intro hall
    have htrack : (raw_track_go items 0 []).isOk = true :=
      (raw_track_go_ok_iff items 0 []).mpr hall
    cases hh : raw_track_go items 0 [] with
    | error e => rw [hh] at htrack; exact absurd htrack (by simp [Except.isOk, Except.toBool])
    | ok oo => exact ⟨oo, rfl, (raw_process_path_items_ok_iff items _ []).mpr hall⟩

/-- C5 (counterexample): a descriptor list whose only descriptor has a
`path` but omits `valueKind` sails through the index build — `raw_preprocess`
returns `ok` — so generation does *not* fail fast at index-build time as the
claim states (the `KeyError` for a missing `valueKind`, when it happens at
all, is raised later by the rendering passes). -/
theorem c5_counterexample :
    (raw_preprocess [({ path := some "a" } : RawItem)]).isOk = true :=
  rfl

/-- Closed instance of `c5_index_build_fails_iff_some_path_missing`: a
descriptor omitting `path` makes the index build fail. -/
theorem c5_witness :
    ¬ ∀ it ∈ [({ path := none, value := some "string" } : RawItem)], it.path.isSome = true := by
  intro hall
  have h := (c5_index_build_fails_iff_some_path_missing
    [({ path := none, value := some "string" } : RawItem)]).mpr hall
  exact absurd h (by decide)

/-- C9: a REORDER column entry yields `ALTER TABLE {table_name} ALTER COLUMN
<backticked-path> FIRST` when its `moveafter` equals `"first"`, and otherwise
`... AFTER <backticked-path>` where the sibling path is the entry's `value`
field (read raw on that branch). -/
theorem c9_reorder_statement_forms :
    (∀ (p : String) (v : Option String),
        generate_sql [Operation.REORDER [{ path := p, moveafter := some "first", value := v }]]
          = Except.ok ["ALTER TABLE {table_name} ALTER COLUMN " ++ format_path p ++ " FIRST"])
      ∧ (∀ (p v : String) (ma : Option String), ma ≠ some "first" →
          generate_sql [Operation.REORDER [{ path := p, moveafter := ma, value := some v }]]
            = Except.ok ["ALTER TABLE {table_name} ALTER COLUMN " ++ format_path p
                ++ " AFTER " ++ format_path v]) := by
  constructor
  · intro p v
    simp [generate_sql, reorder_statement, List.mapM, List.mapM.loop, Bind.bind,
      Except.bind, Pure.pure, Except.pure]
  · intro p v ma hma
    simp [generate_sql, reorder_statement, List.mapM, List.mapM.loop, Bind.bind,
      Except.bind, Pure.pure, Except.pure, hma]

/-- Closed instance of `c9_reorder_statement_forms` at the spec's Scenario 5
entry and at an `AFTER` entry. -/
theorem c9_witness :
    generate_sql [Operation.REORDER [{ path := "a", moveafter := some "first" }]]
        = Except.ok ["ALTER TABLE {table_name} ALTER COLUMN `a` FIRST"]
      ∧ generate_sql [Operation.REORDER [{ path := "a", moveafter := none, value := some "c" }]]
        = Except.ok ["ALTER TABLE {table_name} ALTER COLUMN `a` AFTER `c`"] :=
  ⟨(c9_reorder_statement_forms.1 "a" none).trans rfl,
   (c9_reorder_statement_forms.2 "a" "c" none (by simp)).trans rfl⟩

/-- Splitting a separator-free character list yields one piece. -/
theorem splitCharGo_no_sep (sep : Char) :
    ∀ (cs acc : List Char), (∀ c ∈ cs, c ≠ sep) →
      splitCharGo sep cs acc = [acc.reverse ++ cs] := by
  intro cs
  induction cs with
  | nil => intro acc _; simp [splitCharGo]
  | cons c cs ih =>
      intro acc h
      have hc : c ≠ sep := h c (by simp)
      rw [splitCharGo, if_neg hc, ih (c :: acc) (fun x hx => h x (by simp [hx]))]
      simp

/-- A dotless path splits into itself. -/
theorem splitDot_dotless (p : String) (h : '.' ∉ p.data) : splitDot p = [p] := by
  obtain ⟨d⟩ := p
  unfold splitDot pySplitChar
  rw [splitCharGo_no_sep '.' d [] (fun c hc heq => h (heq ▸ hc))]
  simp

/-- A true `isPre` implies membership transfer. -/
theorem isPre_mem : ∀ (a b : List Char), isPre a b = true → ∀ x ∈ a, x ∈ b := by
  intro a
  induction a with
  | nil => intro b _ x hx; cases hx
  | cons c cs ih =>
      intro b h x hx
      cases b with
      | nil => simp [isPre] at h
      | cons d ds =>
          rw [isPre, Bool.and_eq_true] at h
          have hcd : c = d := by simpa using h.1
          rcases List.mem_cons.mp hx with h1 | h2
          · exact List.mem_cons.mpr (Or.inl (h1.trans hcd))
          · exact List.mem_cons.mpr (Or.inr (ih ds h.2 x h2))

/-- No occurrence of `pat` inside `s` when a character of `pat` is absent
from `s`. -/
theorem subSplitGo_none_of (pat : List Char) (c : Char) (hc : c ∈ pat) :
    ∀ s : List Char, c ∉ s → subSplitGo pat s = none := by
  intro s
  induction s with
  | nil => intro _; rfl
  | cons d ds ih =>
      intro hs
      by_cases hpre : isPre pat (d :: ds) = true
      · exact absurd (isPre_mem pat (d :: ds) hpre c hc) hs
      · rw [subSplitGo, if_neg hpre, ih (fun h => hs (List.mem_cons.mpr (Or.inr h)))]
        rfl

/-- A dotless path does not contain the `".element."` marker. -/
theorem containsSub_element_dotless (p : String) (h : '.' ∉ p.data) :
    containsSub ".element." p = false := by
  unfold containsSub
  rw [subSplitGo_none_of ".element.".data '.' (by decide) p.data h]
  rfl

/-- C10: an ADD array descriptor whose `nestedFields` attribute is the
literal string `"None"` is treated as if `nestedFields` were absent: the
index derives no nested-field association from it, and (with no element
fields and no nested arrays) the column renders as a simple
`array<arrType-or-string>` rather than `array<struct<...>>`. -/
theorem c10_nestedfields_none_treated_absent
    (p : String) (arrt dc : Option String) (h : '.' ∉ p.data) :
    (preprocess_input
        { input_data := [{ path := p, value := "array", doc := dc, arr_type := arrt,
                           nestedFields := some NFVal.noneStr }] }).array_nested_fields = []
      ∧ generate_sql_add
          [{ path := p, value := "array", doc := dc, arr_type := arrt,
             nestedFields := some NFVal.noneStr }]
        = "ALTER TABLE {table_name} \n    ADD COLUMNS (\n    `" ++ p ++ "` array<"
            ++ arrt.getD "string" ++ "> COMMENT '" ++ dc.getD "" ++ "' \n    )" := by
  have hs := splitDot_dotless p h
  have hc := containsSub_element_dotless p h
  constructor
  · simp [preprocess_input, track_original_order, process_path_items,
      process_array_nested_fields, element_fields_update, field_order_update, hs, hc]
  · simp [generate_sql_add, add_column_definitions, process_array_elements,
      preprocess_input, track_original_order, process_path_items,
      process_array_nested_fields, element_fields_update, field_order_update,
      process_top_level_items, process_top_level_go, process_remaining_items,
      process_remaining_go, get_remaining_items, is_child_of_processed_path,
      format_dotted_path, format_dotted_array, format_after_clause, format_path,
      format_comment, get_property_description, pySortBy, sortInsert, add_fuel,
      dget, dset, dmem, dkeys, pyJoin, joinDot, hs, hc, List.insert,
      String.append_assoc]
    rw [show ("ALTER TABLE {table_name} \n    ADD COLUMNS (\n    `" : String)
          = "ALTER TABLE {table_name} \n    ADD COLUMNS (\n" ++ "    " ++ "`" from rfl,
        show ("> COMMENT '" : String) = "> " ++ "COMMENT " ++ "'" from rfl]
    simp only [String.append_assoc]

/-- Closed instance of `c10_nestedfields_none_treated_absent` at a concrete
array descriptor. -/
theorem c10_witness :
    '.' ∉ ("tags" : String).data
      ∧ generate_sql_add
          [{ path := "tags", value := "array", nestedFields := some NFVal.noneStr }]
        = "ALTER TABLE {table_name} \n    ADD COLUMNS (\n    `tags` array<string> COMMENT '' \n    )" :=
  ⟨by decide,
   ((c10_nestedfields_none_treated_absent "tags" none none (by decide)).2).trans rfl⟩

/-! ## Dictionary and stable-sort lemmas -/

/-- Cons-step equation for `dget`. -/
theorem dget_cons {α : Type} (e : String × α) (es : List (String × α)) (k : String) :
    dget (e :: es) k = if e.1 = k then some e.2 else dget es k := by
  by_cases h : e.1 = k
  · simp [dget, List.find?, h]
  · simp [dget, List.find?, h]

/-- Setting then reading the same key. -/
theorem dget_dset {α : Type} (d : List (String × α)) (k : String) (v : α) :
    dget (dset d k v) k = some v := by
  induction d with
  | nil => simp [dset, dget_cons]
  | cons e es ih =>
      by_cases h : e.1 = k
      · simp [dset, h, dget_cons]
      · simp [dset, h, dget_cons, ih]

/-- Setting one key leaves other keys' lookups unchanged. -/
theorem dget_dset_ne {α : Type} (d : List (String × α)) (k k' : String) (v : α)
    (h : k' ≠ k) : dget (dset d k v) k' = dget d k' := by
  induction d with
  | nil => simp [dset, dget_cons, dget, Ne.symm h]
  | cons e es ih =>
      by_cases he : e.1 = k
      · subst he
        simp [dset, dget_cons, Ne.symm h, h]
      · simp [dset, he, dget_cons, ih]

/-- A lookup succeeds exactly on recorded keys. -/
theorem dget_isSome_iff_mem {α : Type} (d : List (String × α)) (k : String) :
    (dget d k).isSome = true ↔ k ∈ dkeys d := by
  induction d with
  | nil => simp [dget, dkeys]
  | cons e es ih =>
      by_cases h : e.1 = k
      · simp [dget_cons, h, dkeys]
      · simp [dget_cons, h, dkeys, ih, Ne.symm h]

/-- Keys after `dset`: unchanged when present, appended when new. -/
theorem dkeys_dset {α : Type} (d : List (String × α)) (k : String) (v : α) :
    dkeys (dset d k v) = if k ∈ dkeys d then dkeys d else dkeys d ++ [k] := by
  induction d with
  | nil => simp [dset, dkeys]
  | cons e es ih =>
      by_cases h : e.1 = k
      · simp [dset, h, dkeys]
      · by_cases hm : k ∈ dkeys es
        · simp only [dkeys] at hm ih ⊢
          simp [dset, h, hm, ih, Ne.symm h]
        · simp only [dkeys] at hm ih ⊢
          simp [dset, h, hm, ih, Ne.symm h]

/-- `dset` preserves key distinctness. -/
theorem dkeys_dset_nodup {α : Type} (d : List (String × α)) (k : String) (v : α)
    (h : (dkeys d).Nodup) : (dkeys (dset d k v)).Nodup := by
  rw [dkeys_dset]
  by_cases hm : k ∈ dkeys d
  · simpa [hm] using h
  · simp [hm, List.nodup_append, h]

/-- `dfold` preserves key distinctness. -/
theorem dfold_keys_nodup {I A : Type} (keyf : I → String) (pred : I → Bool) (g : I → A) :
    ∀ (l : List I) (all : List (String × A)), (dkeys all).Nodup →
      (dkeys (dfold keyf pred g l all)).Nodup := by
  intro l
  induction l with
  | nil => intro all h; exact h
  | cons e t ih =>
      intro all h
      rw [dfold, List.foldl_cons]
      by_cases hp : pred e = true
      · simpa [hp, dfold] using ih (dset all (keyf e) (g e)) (dkeys_dset_nodup _ _ _ h)
      · simpa [hp, dfold] using ih all h

/-- Values recorded by `dfold` satisfy any key-indexed property its inserted
values satisfy, provided the initial dict satisfies it. -/
theorem dfold_preserve_keyed {I A : Type} (keyf : I → String) (pred : I → Bool) (g : I → A)
    (Q : String → A → Prop) (hg : ∀ e, Q (keyf e) (g e)) :
    ∀ (l : List I) (all : List (String × A)),
      (∀ k v, dget all k = some v → Q k v) →
      ∀ k v, dget (dfold keyf pred g l all) k = some v → Q k v := by
  intro l
  induction l with
  | nil => intro all h k v hv; exact h k v hv
  | cons e t ih =>
      intro all h k v hv
      rw [dfold, List.foldl_cons] at hv
      by_cases hp : pred e = true
      · rw [if_pos hp] at hv
        refine ih (dset all (keyf e) (g e)) ?_ k v (by simpa [dfold] using hv)
        intro k' v' hv'
        by_cases hk : k' = keyf e
        · subst hk
          rw [dget_dset] at hv'
          cases hv'
          exact hg e
        · rw [dget_dset_ne _ _ _ _ hk] at hv'
          exact h k' v' hv'
      · rw [if_neg hp] at hv
        exact ih all h k v (by simpa [dfold] using hv)

/-- If some processed element hits key `n` (or `n` is already suitably
recorded), after `dfold` the key `n` holds a value from the property class of
the inserted values. -/
theorem dfold_exists {I A : Type} (keyf : I → String) (pred : I → Bool) (g : I → A)
    (Q : A → Prop) (hg : ∀ e, Q (g e)) :
    ∀ (l : List I) (all : List (String × A)) (n : String),
      ((∃ e ∈ l, keyf e = n ∧ pred e = true) ∨ ∃ v, dget all n = some v ∧ Q v) →
      ∃ v, dget (dfold keyf pred g l all) n = some v ∧ Q v := by
  intro l
  induction l with
  | nil =>
      intro all n h
      rcases h with ⟨e, he, -⟩ | ⟨v, hv, hq⟩
      · cases he
      · exact ⟨v, hv, hq⟩
  | cons e t ih =>
      intro all n h
      rw [dfold, List.foldl_cons]
      rcases h with ⟨e', he', hk, hp⟩ | ⟨v, hv, hq⟩
      · rcases List.mem_cons.mp he' with rfl | hmem
        · rw [if_pos hp]
          by_cases ht : ∃ x ∈ t, keyf x = n ∧ pred x = true
          · exact ih _ n (Or.inl ht)
          · refine ih _ n (Or.inr ⟨g e', ?_, hg e'⟩)
            rw [← hk, dget_dset]
        · by_cases hp2 : pred e = true
          · rw [if_pos hp2]
            exact ih _ n (Or.inl ⟨e', hmem, hk, hp⟩)
          · rw [if_neg hp2]
            exact ih _ n (Or.inl ⟨e', hmem, hk, hp⟩)
      · by_cases hp2 : pred e = true
        · rw [if_pos hp2]
          by_cases hk : n = keyf e
          · subst hk
            exact ih _ _ (Or.inr ⟨g e, dget_dset _ _ _, hg e⟩)
          · refine ih _ n (Or.inr ⟨v, ?_, hq⟩)
            rw [dget_dset_ne _ _ _ _ hk]
            exact hv
        · rw [if_neg hp2]
          exact ih _ n (Or.inr ⟨v, hv, hq⟩)

/-- A `dfold` whose processed elements never hit key `n` leaves `n`'s lookup
unchanged. -/
theorem dfold_skip {I A : Type} (keyf : I → String) (pred : I → Bool) (g : I → A) :
    ∀ (l : List I) (all : List (String × A)) (n : String),
      (∀ e ∈ l, pred e = true → keyf e ≠ n) →
      dget (dfold keyf pred g l all) n = dget all n := by
  intro l
  induction l with
  | nil => intro all n _; rfl
  | cons e t ih =>
      intro all n h
      rw [dfold, List.foldl_cons]
      by_cases hp : pred e = true
      · rw [if_pos hp]
        have h2 : dget (dfold keyf pred g t (dset all (keyf e) (g e))) n
            = dget (dset all (keyf e) (g e)) n :=
          ih _ n (fun x hx hpx => h x (List.mem_cons.mpr (Or.inr hx)) hpx)
        rw [dfold] at h2
        rw [h2, dget_dset_ne]
        exact fun hh => h e (List.mem_cons.mpr (Or.inl rfl)) hp hh.symm
      · rw [if_neg hp]
        exact ih all n (fun x hx hpx => h x (List.mem_cons.mpr (Or.inr hx)) hpx)

/-- `sortInsert` permutes a cons. -/
theorem sortInsert_perm {α : Type} (key : α → Int) (a : α) :
    ∀ l : List α, (sortInsert key a l).Perm (a :: l) := by
  intro l
  induction l with
  | nil => simp [sortInsert]
  | cons b bs ih =>
      rw [sortInsert]
      by_cases h : key b ≤ key a
      · rw [if_pos h]
        exact (ih.cons b).trans (List.Perm.swap a b bs)
      · rw [if_neg h]

/-- The stable sort is a permutation of its input. -/
theorem pySortBy_foldl_perm {α : Type} (key : α → Int) :
    ∀ (l acc : List α),
      (l.foldl (fun acc a => sortInsert key a acc) acc).Perm (l ++ acc) := by
  intro l
  induction l with
  | nil => intro acc; simp
  | cons a t ih =>
      intro acc
      rw [List.foldl_cons]
      refine (ih (sortInsert key a acc)).trans ?_
      exact (List.Perm.append_left t (sortInsert_perm key a acc)).trans List.perm_middle

/-- `pySortBy` permutes its input. -/
theorem pySortBy_perm {α : Type} (key : α → Int) (l : List α) :
    (pySortBy key l).Perm l := by
  simpa using pySortBy_foldl_perm key l []

/-- `sortInsert` preserves sortedness by key. -/
theorem sortInsert_sorted {α : Type} (key : α → Int) (a : α) :
    ∀ l : List α, l.Pairwise (fun x y => key x ≤ key y) →
      (sortInsert key a l).Pairwise (fun x y => key x ≤ key y) := by
  intro l
  induction l with
  | nil => intro _; simp [sortInsert]
  | cons b bs ih =>
      intro hp
      rw [List.pairwise_cons] at hp
      rw [sortInsert]
      by_cases h : key b ≤ key a
      · rw [if_pos h, List.pairwise_cons]
        constructor
        · intro y hy
          rcases List.mem_cons.mp ((sortInsert_perm key a bs).mem_iff.mp hy) with rfl | hmem
          · exact h
          · exact hp.1 y hmem
        · exact ih hp.2
      · rw [if_neg h, List.pairwise_cons]
        refine ⟨?_, List.pairwise_cons.mpr hp⟩
        intro y hy
        have ha : key a ≤ key b := le_of_lt (lt_of_not_le h)
        rcases List.mem_cons.mp hy with rfl | hmem
        · exact ha
        · exact le_trans ha (hp.1 y hmem)

/-- `pySortBy` sorts by key. -/
theorem pySortBy_sorted {α : Type} (key : α → Int) (l : List α) :
    (pySortBy key l).Pairwise (fun x y => key x ≤ key y) := by
  rw [pySortBy]
  have : ∀ (t acc : List α), acc.Pairwise (fun x y => key x ≤ key y) →
      (t.foldl (fun acc a => sortInsert key a acc) acc).Pairwise (fun x y => key x ≤ key y) := by
    intro t
    induction t with
    | nil => intro acc h; exact h
    | cons a t ih => intro acc h; exact ih _ (sortInsert_sorted key a acc h)
  exact this l [] (by simp)

/-- The head of the stable sort is the element of uniquely minimal key. -/
theorem pySortBy_head_min {α : Type} (key : α → Int) (l : List α) (x : α)
    (hx : x ∈ l) (hmin : ∀ y ∈ l, y ≠ x → key x < key y) :
    (pySortBy key l).head? = some x := by
  have hperm := pySortBy_perm key l
  have hs := pySortBy_sorted key l
  have hx' : x ∈ pySortBy key l := hperm.mem_iff.mpr hx
  cases hgoal : pySortBy key l with
  | nil => rw [hgoal] at hx'; cases hx'
  | cons h t =>
      rw [hgoal] at hx' hs
      by_cases he : h = x
      · simp [he]
      · have hlt : key x < key h :=
          hmin h (hperm.mem_iff.mp (by rw [hgoal]; exact List.mem_cons.mpr (Or.inl rfl))) he
        have hxt : x ∈ t := by
          rcases List.mem_cons.mp hx' with rfl | hm
          · exact absurd rfl he
          · assumption
        have := (List.pairwise_cons.mp hs).1 x hxt
        exact absurd this (not_le_of_lt hlt)

/-- `_collect_array_fields` as two `dfold` source passes over the
nestedFields-initialized dict (definitional repackaging). -/
theorem collect_array_fields_eq (st : GenState) (p : String) :
    collect_array_fields st p =
      dfold (fun nap => (splitDot nap).getLastD "") (fun _ => true)
        (fun nap =>
          { ftype := "nested_array",
            order := Int.ofNat ((dget st.original_order nap).getD 999999),
            fpath := some nap })
        ((dget st.nested_arrays p).getD [])
        (dfold (fun (e : String × String) => e.1) (fun e => dmem st.path_data e.2)
          (fun e =>
            { ftype := "regular",
              order := Int.ofNat ((dget st.original_order e.2).getD 999999),
              fpath := some e.2 })
          ((dget st.array_element_fields p).getD [])
          (match dget st.path_data p with
           | some ai =>
               match ai.nestedFields with
               | some (NFVal.dict nf) =>
                   dset [] nf.name { ftype := "nestedField", order := -1, data := some nf }
               | _ => []
           | none => [])) :=
  rfl

/-- C3 (amended): `_collect_array_fields` merges the three sources by field
name with pairwise-distinct names; the nestedFields entry is ordered first
(its order key `-1` precedes every `originalOrder`-derived key) *as long as
its name collides with no other source* — but when the same field name also
occurs in the elementFields source, the later source's entry replaces the
nestedFields entry in place (Python dict assignment), so on a duplicated
name the last match in the priority order wins, not the first. -/
theorem c3_merge_last_source_wins (st : GenState) (p : String) (ai : Item) (nf : NF)
    (hai : dget st.path_data p = some ai)
    (hnf : ai.nestedFields = some (NFVal.dict nf)) :
    (dkeys (collect_array_fields st p)).Nodup
      ∧ (∀ ep : String, (nf.name, ep) ∈ (dget st.array_element_fields p).getD [] →
          dmem st.path_data ep = true →
          ∃ info, dget (collect_array_fields st p) nf.name = some info
            ∧ info.ftype ≠ "nestedField")
      ∧ ((∀ e ∈ (dget st.array_element_fields p).getD [],
            dmem st.path_data e.2 = true → e.1 ≠ nf.name) →
         (∀ nap ∈ (dget st.nested_arrays p).getD [],
            (splitDot nap).getLastD "" ≠ nf.name) →
         dget (collect_array_fields st p) nf.name
             = some { ftype := "nestedField", order := -1, data := some nf }
           ∧ (pySortBy
                (fun n =>
                  match dget (collect_array_fields st p) n with
                  | some i => i.order
                  | none => 999999)
                (dkeys (collect_array_fields st p))).head? = some nf.name) := by
  rw [collect_array_fields_eq]
  simp only [hai, hnf]
  refine ⟨?_, ?_, ?_⟩
  · apply dfold_keys_nodup
    apply dfold_keys_nodup
    simp [dset, dkeys]
  · intro ep hep hmem
    refine dfold_exists _ _ _ (fun v : FieldInfo => v.ftype ≠ "nestedField") ?_ _ _ _ ?_
    · intro e; simp
    · refine Or.inr ?_
      refine dfold_exists _ _ _ (fun v : FieldInfo => v.ftype ≠ "nestedField") ?_ _ _ _ ?_
      · intro e; simp
      · exact Or.inl ⟨(nf.name, ep), hep, rfl, hmem⟩
  · intro hreg hna
    have hbase : dget (dset ([] : List (String × FieldInfo)) nf.name
        { ftype := "nestedField", order := -1, data := some nf }) nf.name
        = some ({ ftype := "nestedField", order := -1, data := some nf } : FieldInfo) :=
      dget_dset _ _ _
    have hskip : dget
        (dfold (fun nap => (splitDot nap).getLastD "") (fun _ => true)
          (fun nap =>
            ({ ftype := "nested_array",
               order := Int.ofNat ((dget st.original_order nap).getD 999999),
               fpath := some nap } : FieldInfo))
          ((dget st.nested_arrays p).getD [])
          (dfold (fun (e : String × String) => e.1) (fun e => dmem st.path_data e.2)
            (fun e =>
              ({ ftype := "regular",
                 order := Int.ofNat ((dget st.original_order e.2).getD 999999),
                 fpath := some e.2 } : FieldInfo))
            ((dget st.array_element_fields p).getD [])
            (dset [] nf.name ({ ftype := "nestedField", order := -1, data := some nf } : FieldInfo))))
        nf.name
        = some ({ ftype := "nestedField", order := -1, data := some nf } : FieldInfo) := by
      rw [dfold_skip _ _ _ _ _ _ (fun nap hmem _ => hna nap hmem),
        dfold_skip _ _ _ _ _ _ (fun e hmem hp => hreg e hmem hp)]
      exact hbase
    refine ⟨hskip, ?_⟩
    apply pySortBy_head_min
    · exact (dget_isSome_iff_mem _ _).mp (by rw [hskip]; rfl)
    · intro y hy hne
      cases hv : dget (dfold (fun nap => (splitDot nap).getLastD "") (fun _ => true)
          (fun nap =>
            ({ ftype := "nested_array",
               order := Int.ofNat ((dget st.original_order nap).getD 999999),
               fpath := some nap } : FieldInfo))
          ((dget st.nested_arrays p).getD [])
          (dfold (fun (e : String × String) => e.1) (fun e => dmem st.path_data e.2)
            (fun e =>
              ({ ftype := "regular",
                 order := Int.ofNat ((dget st.original_order e.2).getD 999999),
                 fpath := some e.2 } : FieldInfo))
            ((dget st.array_element_fields p).getD [])
            (dset [] nf.name ({ ftype := "nestedField", order := -1, data := some nf } : FieldInfo)))) y with
      | none =>
          have hys := (dget_isSome_iff_mem _ y).mpr hy
          rw [hv] at hys
          cases hys
      | some info =>
          have hQ : y ≠ nf.name → (0 : Int) ≤ info.order := by
            refine dfold_preserve_keyed _ _ _
              (fun (k : String) (v : FieldInfo) => k ≠ nf.name → (0 : Int) ≤ v.order)
              (fun e _ => Int.ofNat_nonneg _) _ _ ?_ y info hv
            refine dfold_preserve_keyed _ _ _
              (fun (k : String) (v : FieldInfo) => k ≠ nf.name → (0 : Int) ≤ v.order)
              (fun e _ => Int.ofNat_nonneg _) _ _ ?_
            intro k v hkv hk
            rw [dset] at hkv
            rw [dget_cons] at hkv
            by_cases hkk : nf.name = k
            · exact absurd hkk.symm hk
            · rw [if_neg hkk] at hkv
              cases hkv
          have h0 := hQ hne
          simp only [hskip, hv]
          omega

/-- Closed instance of `c3_merge_last_source_wins` at the colliding input of
`c3_counterexample`: the merged entry for `f` is not the nestedFields one. -/
theorem c3_merge_witness :
    ∃ info,
      dget
        (collect_array_fields
          (process_array_elements (preprocess_input
            { input_data :=
                [{ path := "a", value := "array",
                   nestedFields := some (NFVal.dict { name := "f", type := some "string" }) },
                 { path := "a.element.f", value := "myint" }] }))
          "a")
        "f" = some info ∧ info.ftype ≠ "nestedField" := by
  exact (c3_merge_last_source_wins _ "a"
      { path := "a", value := "array",
        nestedFields := some (NFVal.dict { name := "f", type := some "string" }) }
      { name := "f", type := some "string" }
      (by decide) (by decide)).2.1 "a.element.f" (by decide) (by decide)

/-! ## Flat (dotless) inputs: C6 -/

/-- Prefix test against oneself plus a tail. -/
theorem isPre_self_append : ∀ a b : List Char, isPre a (a ++ b) = true := by
  intro a
  induction a with
  | nil => intro b; rfl
  | cons c cs ih => intro b; simp [isPre, ih]

/-- Cancelling a common prefix in `isPre`. -/
theorem isPre_append_cancel : ∀ a b c : List Char, isPre (a ++ b) (a ++ c) = isPre b c := by
  intro a
  induction a with
  | nil => intro b c; rfl
  | cons x xs ih => intro b c; simp [isPre, ih]

/-- With only dotless recorded paths, no path has children. -/
theorem has_children_false_of_dotless_keys (st : GenState) (p : String)
    (hkeys : ∀ k ∈ dkeys st.path_data, '.' ∉ k.data) :
    has_children st p = false := by
  rw [has_children]
  rw [List.any_eq_false]
  intro k hk
  have hdk := hkeys k hk
  cases hpre : pyStartswith k (p ++ ".")
  · simp
  · exfalso
    rw [pyStartswith] at hpre
    have : '.' ∈ k.data :=
      isPre_mem _ _ hpre '.' (by simp [String.data_append])
    exact hdk this

/-- Head-shape fact: a string of the form `"    " ++ format_path p ++ " " ++ t`
is a column definition for `p`. -/
theorem isColFor_of_shape (p : String) (t : String) (s : String)
    (h : s = "    " ++ format_path p ++ " " ++ t) : isColFor p s = true := by
  subst h
  rw [isColFor]
  have h1 : ("    " ++ format_path p ++ " ").data
      = ("    " ++ format_path p).data ++ [' '] := by
    simp [String.data_append]
  have h2 : ("    " ++ format_path p ++ " " ++ t).data
      = ("    " ++ format_path p).data ++ ([' '] ++ t.data) := by
    simp [String.data_append]
  rw [h1, h2, ← List.append_assoc]
  exact isPre_self_append _ _

/-- On a dotless path (with only dotless recorded paths and no element-field
record for it), `_format_dotted_path` always emits a column definition for
that path and leaves the state unchanged. -/
theorem format_dotted_path_dotless (fuel : Nat) (st : GenState) (item : Item)
    (hdot : '.' ∉ item.path.data)
    (hkeys : ∀ k ∈ dkeys st.path_data, '.' ∉ k.data)
    (haef : dget st.array_element_fields item.path = none) :
    ∃ s, format_dotted_path fuel st item = (some s, st) ∧ isColFor item.path s = true := by
  have hc := containsSub_element_dotless item.path hdot
  have hs := splitDot_dotless item.path hdot
  have hhc := has_children_false_of_dotless_keys st item.path hkeys
  rw [format_dotted_path]
  simp only [hc, hs]
  norm_num
  by_cases h1 : item.value = "object"
  · rw [if_pos h1, format_dotted_object, hhc]
    norm_num
    apply isColFor_of_shape item.path
      ("struct<> " ++ format_comment (item.doc.getD "") ++ format_after_clause item)
    rw [show (" struct<> " : String) = " " ++ "struct<> " from rfl]
    simp only [String.append_assoc]
  · rw [if_neg h1]
    by_cases h2 : item.value = "array"
    · rw [if_pos h2, format_dotted_array]
      simp only [haef]
      have hmark : mark_array_elements_processed st item.path = st := by
        rw [mark_array_elements_processed, haef]
      cases hnf : item.nestedFields with
      | none =>
          norm_num
          apply isColFor_of_shape item.path
            ("array<" ++ item.arr_type.getD "string" ++ "> "
              ++ format_comment (item.doc.getD "") ++ format_after_clause item)
          rw [show (" array<" : String) = " " ++ "array<" from rfl]
          simp only [String.append_assoc]
      | some nfv =>
          cases nfv with
          | noneStr =>
              norm_num
              apply isColFor_of_shape item.path
                ("array<" ++ item.arr_type.getD "string" ++ "> "
                  ++ format_comment (item.doc.getD "") ++ format_after_clause item)
              rw [show (" array<" : String) = " " ++ "array<" from rfl]
              simp only [String.append_assoc]
          | dict nf =>
              by_cases hstrip :
                  stripTruthy (format_array_struct_content fuel st item.path 3) = true
              · rw [if_pos hstrip, hmark]
                norm_num
                apply isColFor_of_shape item.path
                  ("array<struct<\n" ++ format_array_struct_content fuel st item.path 3
                    ++ "\n    >> " ++ format_comment (item.doc.getD "")
                    ++ format_after_clause item)
                rw [show (" array<struct<\n" : String) = " " ++ "array<struct<\n" from rfl]
                simp only [String.append_assoc]
              · rw [if_neg hstrip]
                norm_num
                apply isColFor_of_shape item.path
                  ("array<" ++ item.arr_type.getD "string" ++ "> "
                    ++ format_comment (item.doc.getD "") ++ format_after_clause item)
                rw [show (" array<" : String) = " " ++ "array<" from rfl]
                simp only [String.append_assoc]
    · rw [if_neg h2]
      norm_num
      apply isColFor_of_shape item.path
        (ddlGet item.value ++ " " ++ format_comment (item.doc.getD "")
          ++ format_after_clause item)
      simp only [String.append_assoc]

/-- The top-level pass over dotless items emits one column definition per
item, in order, each a definition for that item's path; only
`processed_paths` changes, and it ends up containing every item path. -/
theorem process_top_level_go_dotless (fuel : Nat) :
    ∀ (l : List Item) (st : GenState),
      (∀ it ∈ l, '.' ∉ it.path.data) →
      (∀ k ∈ dkeys st.path_data, '.' ∉ k.data) →
      st.array_element_fields = [] →
      (List.map (fun it => it.path) l).Nodup →
      (∀ it ∈ l, it.path ∉ st.processed_paths) →
      List.Forall₂ (fun it d => isColFor it.path d = true) l
          (process_top_level_go fuel l st).1
        ∧ (process_top_level_go fuel l st).2.input_data = st.input_data
        ∧ (process_top_level_go fuel l st).2.path_data = st.path_data
        ∧ (process_top_level_go fuel l st).2.array_element_fields = st.array_element_fields
        ∧ (process_top_level_go fuel l st).2.original_order = st.original_order
        ∧ (∀ p ∈ st.processed_paths, p ∈ (process_top_level_go fuel l st).2.processed_paths)
        ∧ (∀ it ∈ l, it.path ∈ (process_top_level_go fuel l st).2.processed_paths) := by
  intro l
  induction l with
  | nil =>
      intro st _ _ _ _ _
      refine ⟨List.Forall₂.nil, rfl, rfl, rfl, rfl, fun p hp => hp, fun it hit => absurd hit (by simp)⟩
  | cons item rest ih =>
      intro st hdot hkeys haef hnd hproc
      have hdi : '.' ∉ item.path.data := hdot item (List.mem_cons.mpr (Or.inl rfl))
      have hcont : st.processed_paths.contains item.path = false := by
        simpa using hproc item (List.mem_cons.mpr (Or.inl rfl))
      have hhc : has_children st item.path = false :=
        has_children_false_of_dotless_keys st item.path hkeys
      obtain ⟨s, heq, hcol⟩ := format_dotted_path_dotless fuel st item hdi hkeys
        (by rw [haef]; rfl)
      have hred : process_top_level_go fuel (item :: rest) st
          = (s :: (process_top_level_go fuel rest
              { st with processed_paths := st.processed_paths.insert item.path }).1,
             (process_top_level_go fuel rest
              { st with processed_paths := st.processed_paths.insert item.path }).2) := by
        rw [process_top_level_go, hcont, hhc, heq]
        simp
      have hih := ih { st with processed_paths := st.processed_paths.insert item.path }
        (fun it hit => hdot it (List.mem_cons.mpr (Or.inr hit)))
        hkeys haef (by simpa using hnd.of_cons)
        (by
          intro it hit
          rw [List.mem_insert_iff]
          push_neg
          constructor
          · intro hpe
            have hhd : item.path ∉ List.map (fun it => it.path) rest :=
              (List.nodup_cons.mp (by simpa using hnd)).1
            have hmem : it.path ∈ List.map (fun it => it.path) rest :=
              List.mem_map_of_mem (fun it => it.path) hit
            rw [hpe] at hmem
            exact hhd hmem
          · exact hproc it (List.mem_cons.mpr (Or.inr hit)))
      rw [hred]
      refine ⟨List.Forall₂.cons hcol hih.1, hih.2.1, hih.2.2.1, hih.2.2.2.1, hih.2.2.2.2.1,
        ?_, ?_⟩
      · intro p hp
        exact hih.2.2.2.2.2.1 p (List.mem_insert_iff.mpr (Or.inr hp))
      · intro it hit
        rcases List.mem_cons.mp hit with rfl | hm
        · exact hih.2.2.2.2.2.1 it.path (List.mem_insert_iff.mpr (Or.inl rfl))
        · exact hih.2.2.2.2.2.2 it hm

/-- `_process_path_items` is the fold of its loop body. -/
theorem process_path_items_eq (st : GenState) :
    process_path_items st = (st.input_data.foldl ppi_step (st, [])).1 :=
  rfl

/-- One dotless step of the `_process_path_items` loop. -/
theorem ppi_step_dotless (st : GenState) (tlp : List String) (item : Item)
    (hdot : '.' ∉ item.path.data) :
    ppi_step (st, tlp) item
      = (if tlp.contains item.path then
          { process_array_nested_fields
              { st with path_data := dset st.path_data item.path item } item item.path with
            field_order := field_order_update
              (process_array_nested_fields
                { st with path_data := dset st.path_data item.path item } item
                item.path).field_order [item.path] }
        else
          { process_array_nested_fields
              { st with path_data := dset st.path_data item.path item,
                        top_level_items := st.top_level_items ++ [item] } item item.path with
            field_order := field_order_update
              (process_array_nested_fields
                { st with path_data := dset st.path_data item.path item,
                          top_level_items := st.top_level_items ++ [item] } item
                item.path).field_order [item.path] },
         if tlp.contains item.path then tlp else item.path :: tlp) := by
  have hs := splitDot_dotless item.path hdot
  have hc := containsSub_element_dotless item.path hdot
  rw [ppi_step]
  simp only [hs, List.headD_cons, element_fields_update, hc, Bool.false_eq_true, if_false,
    ite_false]
  by_cases ht : item.path ∈ tlp
  · have ht2 : tlp.contains item.path = true := by simpa using ht
    simp [ht, ht2]
  · have ht2 : tlp.contains item.path = false := by simpa using ht
    simp [ht, ht2]

/-- `_process_array_nested_fields` touches only `array_nested_fields`. -/
theorem panf_shape (st : GenState) (item : Item) (path : String) :
    ∃ anf, process_array_nested_fields st item path
      = { st with array_nested_fields := anf } := by
  cases h : item.nestedFields with
  | none => exact ⟨st.array_nested_fields, by simp [process_array_nested_fields, h]⟩
  | some nfv =>
      cases nfv with
      | noneStr => exact ⟨st.array_nested_fields, by simp [process_array_nested_fields, h]⟩
      | dict nf =>
          by_cases hv : item.value = "array"
          · exact ⟨dset st.array_nested_fields path nf,
              by simp [process_array_nested_fields, h, hv]⟩
          · exact ⟨st.array_nested_fields, by simp [process_array_nested_fields, h, hv]⟩

/-- The `_process_path_items` fold over fresh dotless descriptors: it appends
them to `top_level_items`, records them in `path_data`, and leaves the other
driver-relevant structures unchanged. -/
theorem ppi_fold_dotless :
    ∀ (l : List Item) (st : GenState) (tlp : List String),
      (∀ it ∈ l, '.' ∉ it.path.data) →
      (List.map (fun it => it.path) l).Nodup →
      (∀ it ∈ l, it.path ∉ tlp) →
      (∀ it ∈ l, it.path ∉ dkeys st.path_data) →
      (l.foldl ppi_step (st, tlp)).1.input_data = st.input_data
        ∧ (l.foldl ppi_step (st, tlp)).1.top_level_items = st.top_level_items ++ l
        ∧ dkeys (l.foldl ppi_step (st, tlp)).1.path_data
            = dkeys st.path_data ++ List.map (fun it => it.path) l
        ∧ (l.foldl ppi_step (st, tlp)).1.array_element_fields = st.array_element_fields
        ∧ (l.foldl ppi_step (st, tlp)).1.processed_paths = st.processed_paths
        ∧ (l.foldl ppi_step (st, tlp)).1.original_order = st.original_order := by
  intro l
  induction l with
  | nil => intro st tlp _ _ _ _; exact ⟨rfl, by simp, by simp, rfl, rfl, rfl⟩
  | cons item rest ih =>
      intro st tlp hdot hnd htlp hpd
      have hdi : '.' ∉ item.path.data := hdot item (List.mem_cons.mpr (Or.inl rfl))
      have hcont : tlp.contains item.path = false := by
        simpa using htlp item (List.mem_cons.mpr (Or.inl rfl))
      obtain ⟨anf, hanf⟩ := panf_shape
        { st with path_data := dset st.path_data item.path item,
                  top_level_items := st.top_level_items ++ [item] } item item.path
      have hstep : ppi_step (st, tlp) item
          = ({ st with path_data := dset st.path_data item.path item,
                       top_level_items := st.top_level_items ++ [item],
                       array_nested_fields := anf,
                       field_order := field_order_update st.field_order [item.path] },
             item.path :: tlp) := by
        rw [ppi_step_dotless st tlp item hdi, hcont]
        simp only [Bool.false_eq_true, if_false, ite_false, hanf]
      have hnewkey : dkeys (dset st.path_data item.path item)
          = dkeys st.path_data ++ [item.path] := by
        rw [dkeys_dset, if_neg (hpd item (List.mem_cons.mpr (Or.inl rfl)))]
      have hih := ih
        { st with path_data := dset st.path_data item.path item,
                  top_level_items := st.top_level_items ++ [item],
                  array_nested_fields := anf,
                  field_order := field_order_update st.field_order [item.path] }
        (item.path :: tlp)
        (fun it hit => hdot it (List.mem_cons.mpr (Or.inr hit)))
        (by simpa using hnd.of_cons)
        (by
          intro it hit
          rw [List.mem_cons]
          push_neg
          refine ⟨?_, htlp it (List.mem_cons.mpr (Or.inr hit))⟩
          intro hpe
          have hhd : item.path ∉ List.map (fun it => it.path) rest :=
            (List.nodup_cons.mp (by simpa using hnd)).1
          have hmem : it.path ∈ List.map (fun it => it.path) rest :=
            List.mem_map_of_mem (fun it => it.path) hit
          rw [hpe] at hmem
          exact hhd hmem)
        (by
          intro it hit
          show it.path ∉ dkeys (dset st.path_data item.path item)
          rw [hnewkey]
          rw [List.mem_append]
          push_neg
          refine ⟨hpd it (List.mem_cons.mpr (Or.inr hit)), ?_⟩
          intro hpe
          rw [List.mem_singleton] at hpe
          have hhd : item.path ∉ List.map (fun it => it.path) rest :=
            (List.nodup_cons.mp (by simpa using hnd)).1
          have hmem : it.path ∈ List.map (fun it => it.path) rest :=
            List.mem_map_of_mem (fun it => it.path) hit
          rw [hpe] at hmem
          exact hhd hmem)
      rw [List.foldl_cons, hstep]
      refine ⟨hih.1, ?_, ?_, hih.2.2.2.1, hih.2.2.2.2.1, hih.2.2.2.2.2⟩
      · rw [hih.2.1]
        simp
      · rw [hih.2.2.1]
        show dkeys (dset st.path_data item.path item) ++ _ = _
        rw [hnewkey]
        simp

/-- With only dotless recorded paths, `_process_array_elements` just resets
its two derived maps. -/
theorem process_array_elements_dotless (st : GenState)
    (h : ∀ k ∈ dkeys st.path_data, '.' ∉ k.data) :
    process_array_elements st
      = { st with array_element_fields := [], nested_arrays := [] } := by
  rw [process_array_elements]
  have hfil : (dkeys st.path_data).filter (fun p => containsSub ".element." p) = [] := by
    rw [List.filter_eq_nil]
    intro p hp
    simp [containsSub_element_dotless p (h p hp)]
  simp only [hfil, pySortBy, List.foldl_nil]

/-- C6: for an ADD descriptor list with no nested paths (every path dotless,
paths pairwise distinct), the generated column definitions correspond 1:1,
in order, to the input descriptors: the i-th definition is a column
definition for the i-th descriptor's path. -/
theorem c6_flat_input_order_preserved (items : List Item)
    (hdot : ∀ it ∈ items, '.' ∉ it.path.data)
    (hnd : (items.map (fun it => it.path)).Nodup) :
    List.Forall₂ (fun it d => isColFor it.path d = true) items (add_column_definitions items)
      ∧ (add_column_definitions items).length = items.length := by
  have hfold := ppi_fold_dotless items
    (track_original_order
      { input_data := items, array_nested_fields := [], element_field_order := [] })
    [] hdot hnd (by simp) (by intro it _; simp [track_original_order, dkeys])
  have hkeysQ : ∀ k ∈ dkeys (items.foldl ppi_step
      (track_original_order
        { input_data := items, array_nested_fields := [], element_field_order := [] },
       [])).1.path_data, '.' ∉ k.data := by
    intro k hk
    rw [hfold.2.2.1] at hk
    simp only [track_original_order, dkeys, List.map_nil, List.nil_append] at hk
    obtain ⟨it, hit, rfl⟩ := List.mem_map.mp (by simpa using hk)
    exact hdot it hit
  have hpae : process_array_elements (preprocess_input { input_data := items })
      = { (items.foldl ppi_step
            (track_original_order
              { input_data := items, array_nested_fields := [], element_field_order := [] },
             [])).1 with array_element_fields := [], nested_arrays := [] } :=
    process_array_elements_dotless _ hkeysQ
  set stQ := (items.foldl ppi_step
    (track_original_order
      { input_data := items, array_nested_fields := [], element_field_order := [] },
     [])).1 with hstQ
  set st0 : GenState := { stQ with array_element_fields := [], nested_arrays := [] }
    with hst0
  have htli : st0.top_level_items = items := by
    show stQ.top_level_items = items
    rw [hstQ, hfold.2.1]
    rfl
  have hinp : st0.input_data = items := by
    show stQ.input_data = items
    rw [hstQ, hfold.1]
    rfl
  have hkeys0 : ∀ k ∈ dkeys st0.path_data, '.' ∉ k.data := hkeysQ
  have hproc0 : st0.processed_paths = [] := by
    show stQ.processed_paths = []
    rw [hstQ, hfold.2.2.2.2.1]
    rfl
  have hgo := process_top_level_go_dotless (add_fuel items) items st0 hdot hkeys0 rfl hnd
    (by intro it _; rw [hproc0]; simp)
  have hrem : (process_remaining_items (add_fuel items)
      (process_top_level_go (add_fuel items) items st0).2).1 = [] := by
    rw [process_remaining_items]
    have hremempty : get_remaining_items
        (process_top_level_go (add_fuel items) items st0).2 = [] := by
      rw [get_remaining_items]
      rw [List.filter_eq_nil]
      intro it hit
      have hmem : it ∈ items := by
        rw [hgo.2.1, hinp] at hit
        exact hit
      have hpin : it.path ∈ (process_top_level_go (add_fuel items) items st0).2.processed_paths :=
        hgo.2.2.2.2.2.2 it hmem
      have hct : ((process_top_level_go (add_fuel items) items st0).2.processed_paths.contains
          it.path) = true := by simpa using hpin
      simp only [hct]
      simp
    rw [hremempty]
    simp [pySortBy, process_remaining_go]
  have hacd : add_column_definitions items
      = (process_top_level_items (add_fuel items)
          (process_array_elements (preprocess_input { input_data := items }))).1
        ++ (process_remaining_items (add_fuel items)
            (process_top_level_items (add_fuel items)
              (process_array_elements (preprocess_input { input_data := items }))).2).1 := rfl
  rw [hacd, hpae]
  rw [process_top_level_items]
  rw [htli]
  rw [hrem, List.append_nil]
  exact ⟨hgo.1, (List.Forall₂.length_eq hgo.1).symm⟩

/-- Closed instance of `c6_flat_input_order_preserved` on a two-descriptor
flat list (note the input order `b` before `a` is preserved). -/
theorem c6_witness :
    List.Forall₂ (fun (it : Item) d => isColFor it.path d = true)
      [{ path := "b", value := "string" }, { path := "a", value := "myint" }]
      (add_column_definitions
        [{ path := "b", value := "string" }, { path := "a", value := "myint" }]) :=
  (c6_flat_input_order_preserved
    [{ path := "b", value := "string" }, { path := "a", value := "myint" }]
    (by decide) (by decide)).1

/-! ## Backticked-path head injectivity (for C1) -/

/-- Splitting never produces an empty piece list. -/
theorem splitCharGo_ne_nil (sep : Char) : ∀ (cs acc : List Char),
    splitCharGo sep cs acc ≠ [] := by
  intro cs
  induction cs with
  | nil => intro acc; simp [splitCharGo]
  | cons c cs ih =>
      intro acc
      rw [splitCharGo]
      by_cases h : c = sep
      · simp [h]
      · simp only [h, if_neg h]
        exact ih (c :: acc)

/-- `splitDot` never returns an empty list. -/
theorem splitDot_ne_nil (p : String) : splitDot p ≠ [] := by
  rw [splitDot, pySplitChar]
  intro h
  exact splitCharGo_ne_nil '.' p.data [] (List.map_eq_nil.mp h)

/-- Every character of a split piece comes from the accumulator or the rest. -/
theorem splitCharGo_chars (sep : Char) : ∀ (cs acc piece : List Char),
    piece ∈ splitCharGo sep cs acc → ∀ c ∈ piece, c ∈ acc ∨ c ∈ cs := by
  intro cs
  induction cs with
  | nil =>
      intro acc piece hp c hc
      rw [splitCharGo, List.mem_singleton] at hp
      subst hp
      exact Or.inl (List.mem_reverse.mp hc)
  | cons d ds ih =>
      intro acc piece hp c hc
      rw [splitCharGo] at hp
      by_cases h : d = sep
      · rw [if_pos h, List.mem_cons] at hp
        rcases hp with rfl | hp
        · exact Or.inl (List.mem_reverse.mp hc)
        · rcases ih [] piece hp c hc with h0 | h0
          · cases h0
          · exact Or.inr (List.mem_cons.mpr (Or.inr h0))
      · rw [if_neg h] at hp
        rcases ih (d :: acc) piece hp c hc with h0 | h0
        · rcases List.mem_cons.mp h0 with rfl | h1
          · exact Or.inr (List.mem_cons.mpr (Or.inl rfl))
          · exact Or.inl h1
        · exact Or.inr (List.mem_cons.mpr (Or.inr h0))

/-- Segments of a backtick-free path are backtick-free. -/
theorem splitDot_tick_free (p : String) (hp : '`' ∉ p.data) :
    ∀ s ∈ splitDot p, '`' ∉ s.data := by
  intro s hs hc
  rw [splitDot, pySplitChar] at hs
  obtain ⟨piece, hpiece, rfl⟩ := List.mem_map.mp hs
  rcases splitCharGo_chars '.' p.data [] piece hpiece '`' hc with h | h
  · cases h
  · exact hp h

/-- Joining the char-level split pieces restores the original characters. -/
theorem splitCharGo_join (sep : Char) (hs : sep = '.') : ∀ (cs acc : List Char),
    pyJoin "." ((splitCharGo sep cs acc).map String.mk)
      = String.mk (acc.reverse ++ cs) := by
  intro cs
  induction cs with
  | nil => intro acc; simp [splitCharGo, pyJoin]
  | cons c cs ih =>
      intro acc
      rw [splitCharGo]
      by_cases h : c = sep
      · rw [if_pos h]
        have hne := splitCharGo_ne_nil sep cs []
        cases hsp : splitCharGo sep cs [] with
        | nil => exact absurd hsp hne
        | cons x xs =>
            rw [List.map_cons, pyJoin]
            rw [← hsp, ih []]
            apply String.ext
            simp [String.data_append, h, hs]
            simp
      · rw [if_neg h, ih (c :: acc)]
        apply String.ext
        simp

/-- `".".join(p.split("."))` is `p`. -/
theorem joinDot_splitDot (p : String) : joinDot (splitDot p) = p := by
  rw [joinDot, splitDot, pySplitChar, splitCharGo_join '.' rfl p.data []]
  cases p
  simp

/-- Backtick-terminated chunks form a prefix code over backtick-free texts. -/
theorem tick_prefix : ∀ (a b x y : List Char), '`' ∉ a → '`' ∉ b →
    isPre (a ++ '`' :: x) (b ++ '`' :: y) = true → a = b ∧ isPre x y = true := by
  intro a
  induction a with
  | nil =>
      intro b x y _ hb h
      cases b with
      | nil =>
          rw [List.nil_append, List.nil_append, isPre, Bool.and_eq_true] at h
          exact ⟨rfl, h.2⟩
      | cons c b' =>
          exfalso
          rw [List.nil_append, List.cons_append, isPre, Bool.and_eq_true] at h
          have hc : '`' = c := by simpa using h.1
          exact hb (hc ▸ List.mem_cons.mpr (Or.inl rfl))
  | cons c a' ih =>
      intro b x y ha hb h
      cases b with
      | nil =>
          exfalso
          rw [List.cons_append, List.nil_append, isPre, Bool.and_eq_true] at h
          have hc : c = '`' := by simpa using h.1
          exact ha (List.mem_cons.mpr (Or.inl hc.symm))
      | cons d b' =>
          rw [List.cons_append, List.cons_append, isPre, Bool.and_eq_true] at h
          have hcd : c = d := by simpa using h.1
          obtain ⟨h1, h2⟩ := ih b' x y
            (fun hm => ha (List.mem_cons.mpr (Or.inr hm)))
            (fun hm => hb (List.mem_cons.mpr (Or.inr hm))) h.2
          exact ⟨by rw [hcd, h1], h2⟩

/-- The backticked encoding of a single segment. -/
theorem enc_single (s : String) :
    (pyJoin "." ([s].map (fun s => "`" ++ s ++ "`"))).data
      = '`' :: (s.data ++ ['`']) := by
  simp [pyJoin, String.data_append]

/-- The backticked encoding of two or more segments. -/
theorem enc_cons (s : String) (r : List String) (hr : r ≠ []) :
    (pyJoin "." ((s :: r).map (fun s => "`" ++ s ++ "`"))).data
      = '`' :: (s.data ++ '`' :: '.' :: (pyJoin "." (r.map (fun s => "`" ++ s ++ "`"))).data) := by
  cases r with
  | nil => exact absurd rfl hr
  | cons a u =>
      rw [List.map_cons, List.map_cons, pyJoin]
      · simp [String.data_append]
      · simp

/-- A backticked dotted encoding terminated by a space determines its
segment list even as a mere prefix. -/
theorem enc_prefix_eq : ∀ (ps qs : List String) (t : List Char),
    (∀ s ∈ ps, '`' ∉ s.data) → (∀ s ∈ qs, '`' ∉ s.data) → ps ≠ [] → qs ≠ [] →
    isPre ((pyJoin "." (ps.map (fun s => "`" ++ s ++ "`"))).data ++ [' '])
        ((pyJoin "." (qs.map (fun s => "`" ++ s ++ "`"))).data ++ (' ' :: t)) = true →
    ps = qs := by
  intro ps
  induction ps with
  | nil => intro qs t _ _ hne; exact absurd rfl hne
  | cons s ps' ih =>
      intro qs t hps hqs _ hqne h
      cases qs with
      | nil => exact absurd rfl hqne
      | cons s' qs' =>
          have hsf : '`' ∉ s.data := hps s (List.mem_cons.mpr (Or.inl rfl))
          have hsf' : '`' ∉ s'.data := hqs s' (List.mem_cons.mpr (Or.inl rfl))
          rcases ps' with _ | ⟨p2, ps''⟩
          · rcases qs' with _ | ⟨q2, qs''⟩
            · rw [enc_single, enc_single] at h
              rw [show ('`' :: (s.data ++ ['`'])) ++ [' ']
                  = '`' :: (s.data ++ '`' :: [' ']) by simp] at h
              rw [show ('`' :: (s'.data ++ ['`'])) ++ (' ' :: t)
                  = '`' :: (s'.data ++ '`' :: (' ' :: t)) by simp] at h
              rw [isPre, Bool.and_eq_true] at h
              obtain ⟨hd, -⟩ := tick_prefix s.data s'.data _ _ hsf hsf' h.2
              have hss : s = s' := by
                cases s; cases s'
                exact congrArg String.mk (by simpa using hd)
              rw [hss]
            · exfalso
              rw [enc_single, enc_cons s' (q2 :: qs'') (by simp)] at h
              rw [show ('`' :: (s.data ++ ['`'])) ++ [' ']
                  = '`' :: (s.data ++ '`' :: [' ']) by simp] at h
              rw [show ∀ z : List Char, ('`' :: (s'.data ++ '`' :: '.' :: z)) ++ (' ' :: t)
                  = '`' :: (s'.data ++ '`' :: '.' :: (z ++ (' ' :: t))) by intro z; simp] at h
              rw [isPre, Bool.and_eq_true] at h
              obtain ⟨-, h2⟩ := tick_prefix s.data s'.data _ _ hsf hsf' h.2
              rw [isPre, Bool.and_eq_true] at h2
              have : (' ' : Char) = '.' := by simpa using h2.1
              exact absurd this (by decide)
          · rcases qs' with _ | ⟨q2, qs''⟩
            · exfalso
              rw [enc_cons s (p2 :: ps'') (by simp), enc_single] at h
              rw [show ∀ z : List Char, ('`' :: (s.data ++ '`' :: '.' :: z)) ++ [' ']
                  = '`' :: (s.data ++ '`' :: '.' :: (z ++ [' '])) by intro z; simp] at h
              rw [show ('`' :: (s'.data ++ ['`'])) ++ (' ' :: t)
                  = '`' :: (s'.data ++ '`' :: (' ' :: t)) by simp] at h
              rw [isPre, Bool.and_eq_true] at h
              obtain ⟨-, h2⟩ := tick_prefix s.data s'.data _ _ hsf hsf' h.2
              rw [isPre, Bool.and_eq_true] at h2
              have : ('.' : Char) = ' ' := by simpa using h2.1
              exact absurd this (by decide)
            · rw [enc_cons s (p2 :: ps'') (by simp), enc_cons s' (q2 :: qs'') (by simp)] at h
              rw [show ∀ z : List Char, ('`' :: (s.data ++ '`' :: '.' :: z)) ++ [' ']
                  = '`' :: (s.data ++ '`' :: '.' :: (z ++ [' '])) by intro z; simp] at h
              rw [show ∀ z : List Char, ('`' :: (s'.data ++ '`' :: '.' :: z)) ++ (' ' :: t)
                  = '`' :: (s'.data ++ '`' :: '.' :: (z ++ (' ' :: t))) by intro z; simp] at h
              rw [isPre, Bool.and_eq_true] at h
              obtain ⟨hd, h2⟩ := tick_prefix s.data s'.data _ _ hsf hsf' h.2
              rw [isPre, Bool.and_eq_true] at h2
              have hrec := ih (q2 :: qs'') t
                (fun z hz => hps z (List.mem_cons.mpr (Or.inr hz)))
                (fun z hz => hqs z (List.mem_cons.mpr (Or.inr hz)))
                (by simp) (by simp) h2.2
              have hss : s = s' := by
                cases s; cases s'
                exact congrArg String.mk (by simpa using hd)
              rw [hss, hrec]

/-- Column-definition heads are injective in the (backtick-free) path. -/
theorem isColFor_inj (p q t : String) (hp : '`' ∉ p.data) (hq : '`' ∉ q.data)
    (h : isColFor p ("    " ++ format_path q ++ " " ++ t) = true) : p = q := by
  rw [isColFor] at h
  have hL : ("    " ++ format_path p ++ " ").data
      = "    ".data ++ ((format_path p).data ++ [' ']) := by
    simp [String.data_append]
  have hR : ("    " ++ format_path q ++ " " ++ t).data
      = "    ".data ++ ((format_path q).data ++ (' ' :: t.data)) := by
    simp [String.data_append]
  rw [hL, hR, isPre_append_cancel] at h
  rw [format_path, format_path] at h
  have heq := enc_prefix_eq (splitDot p) (splitDot q) t.data
    (splitDot_tick_free p hp) (splitDot_tick_free q hq)
    (splitDot_ne_nil p) (splitDot_ne_nil q) h
  calc p = joinDot (splitDot p) := (joinDot_splitDot p).symm
    _ = joinDot (splitDot q) := by rw [heq]
    _ = q := joinDot_splitDot q

/-! ## Formatter head shapes and state discipline (for C1) -/

/-- `ProcOnly` is reflexive. -/
theorem ProcOnly.refl (st : GenState) : ProcOnly st st := rfl

/-- `ProcOnly` is transitive. -/
theorem ProcOnly.trans {a b c : GenState} (h1 : ProcOnly a b) (h2 : ProcOnly b c) :
    ProcOnly a c := by
  rw [ProcOnly] at h1 h2 ⊢
  rw [h2, h1]

/-- Inserting into `processed_paths` is a `ProcOnly` step. -/
theorem ProcOnly.insert (st : GenState) (p : String) :
    ProcOnly st { st with processed_paths := st.processed_paths.insert p } := rfl

/-- Field projections of a `ProcOnly` pair agree. -/
theorem ProcOnly.statics {st st' : GenState} (h : ProcOnly st st') :
    st'.input_data = st.input_data ∧ st'.path_data = st.path_data
      ∧ st'.array_element_fields = st.array_element_fields
      ∧ st'.element_fields = st.element_fields
      ∧ st'.original_order = st.original_order
      ∧ st'.top_level_items = st.top_level_items
      ∧ st'.nested_arrays = st.nested_arrays := by
  rw [ProcOnly] at h
  rw [h]
  exact ⟨rfl, rfl, rfl, rfl, rfl, rfl, rfl⟩

/-- `wf_aef` transfers along `ProcOnly`. -/
theorem wf_aef_of_ProcOnly {st st' : GenState} (h : ProcOnly st st') (hw : wf_aef st) :
    wf_aef st' := by
  rw [ProcOnly] at h
  rw [wf_aef, h]
  exact hw

/-- A string of shape `"    " ++ format_path p ++ " struct<" ++ t` is a
struct column definition for `p` (and in particular a column definition). -/
theorem isStructColFor_of_shape (p t s : String)
    (h : s = "    " ++ format_path p ++ " struct<" ++ t) :
    isStructColFor p s = true ∧ isColFor p s = true := by
  constructor
  · subst h
    rw [isStructColFor, String.data_append]
    exact isPre_self_append _ _
  · apply isColFor_of_shape p ("struct<" ++ t)
    rw [h, show (" struct<" : String) = " " ++ "struct<" from rfl]
    simp only [String.append_assoc]

/-- `_add_direct_child_if_matched` only appends dotted paths (given the
examined path extends `parent ++ "."`). -/
theorem add_direct_child_dotted (st : GenState) (path remaining : String)
    (acc : List String) (parent : String)
    (hacc : ∀ c ∈ acc, '.' ∈ c.data)
    (hstart : pyStartswith path (parent ++ ".") = true) :
    ∀ c ∈ add_direct_child_if_matched st path remaining acc parent, '.' ∈ c.data := by
  have hdp : '.' ∈ path.data := by
    rw [pyStartswith] at hstart
    exact isPre_mem _ _ hstart '.' (by simp [String.data_append])
  intro c hc
  rw [add_direct_child_if_matched] at hc
  dsimp only [] at hc
  split at hc
  · rcases List.mem_append.mp hc with h | h
    · exact hacc c h
    · rw [List.mem_singleton] at h
      exact h ▸ hdp
  · split at hc
    · split at hc
      · rcases List.mem_append.mp hc with h | h
        · exact hacc c h
        · rw [List.mem_singleton] at h
          subst h
          simp [String.data_append]
      · exact hacc c hc
    · split at hc
      · split at hc
        · rcases List.mem_append.mp hc with h | h
          · exact hacc c h
          · rw [List.mem_singleton] at h
            subst h
            simp [String.data_append]
        · exact hacc c hc
      · exact hacc c hc

/-- Direct children of a non-empty parent path are dotted paths. -/
theorem get_direct_children_dotted (st : GenState) (p : String) (hne : p ≠ "") :
    ∀ c ∈ get_direct_children st p, '.' ∈ c.data := by
  rw [get_direct_children]
  have hbne : (p != "") = true := by simpa using hne
  rw [hbne]
  simp only [if_true]
  suffices h : ∀ (keys : List String) (acc : List String), (∀ c ∈ acc, '.' ∈ c.data) →
      ∀ c ∈ keys.foldl
        (fun acc q =>
          if q = p || st.processed_paths.contains q then acc
          else if !pyStartswith q (p ++ ".") then acc
          else add_direct_child_if_matched st q (pyDrop q (p ++ ".").data.length) acc p)
        acc, '.' ∈ c.data by
    exact h (dkeys st.path_data) [] (by simp)
  intro keys
  induction keys with
  | nil => intro acc hacc c hc; exact hacc c hc
  | cons q t ih =>
      intro acc hacc c hc
      rw [List.foldl_cons] at hc
      by_cases h1 : (q = p || st.processed_paths.contains q) = true
      · rw [if_pos h1] at hc
        exact ih acc hacc c hc
      · rw [if_neg h1] at hc
        by_cases h2 : (!pyStartswith q (p ++ ".")) = true
        · rw [if_pos h2] at hc
          exact ih acc hacc c hc
        · rw [if_neg h2] at hc
          refine ih _ ?_ c hc
          exact add_direct_child_dotted st q _ acc p hacc (by simpa using h2)

/-- A fold inserting element paths under `child` only grows
`processed_paths`, and only by dotted paths. -/
theorem insert_elem_fold_spec (child : String) : ∀ (efs : List String) (s : GenState),
    ProcOnly s (efs.foldl (fun st ef =>
        { st with processed_paths := st.processed_paths.insert (child ++ ".element." ++ ef) }) s)
      ∧ (∀ x ∈ s.processed_paths, x ∈ (efs.foldl (fun st ef =>
          { st with processed_paths :=
              st.processed_paths.insert (child ++ ".element." ++ ef) }) s).processed_paths)
      ∧ (∀ x ∈ (efs.foldl (fun st ef =>
          { st with processed_paths :=
              st.processed_paths.insert (child ++ ".element." ++ ef) }) s).processed_paths,
          x ∈ s.processed_paths ∨ '.' ∈ x.data) := by
  intro efs
  induction efs with
  | nil => intro s; exact ⟨ProcOnly.refl s, fun x hx => hx, fun x hx => Or.inl hx⟩
  | cons ef rest ih =>
      intro s
      rw [List.foldl_cons]
      obtain ⟨hp, hsup, hbnd⟩ := ih
        { s with processed_paths := s.processed_paths.insert (child ++ ".element." ++ ef) }
      refine ⟨(ProcOnly.insert s _).trans hp, ?_, ?_⟩
      · intro x hx
        exact hsup x (List.mem_insert_iff.mpr (Or.inr hx))
      · intro x hx
        rcases hbnd x hx with h | h
        · rcases List.mem_insert_iff.mp h with rfl | h2
          · right
            simp [String.data_append]
          · exact Or.inl h2
        · exact Or.inr h

/-- `_mark_processed_tree` only grows `processed_paths`, by the parent path
and dotted paths. -/
theorem mark_processed_tree_spec (st : GenState) (path : String) (children : List String)
    (hch : ∀ c ∈ children, '.' ∈ c.data) :
    ProcOnly st (mark_processed_tree st path children)
      ∧ (∀ x ∈ st.processed_paths, x ∈ (mark_processed_tree st path children).processed_paths)
      ∧ (∀ x ∈ (mark_processed_tree st path children).processed_paths,
          x ∈ st.processed_paths ∨ x = path ∨ '.' ∈ x.data) := by
  rw [mark_processed_tree]
  suffices h : ∀ (cs : List String) (s : GenState), (∀ c ∈ cs, '.' ∈ c.data) →
      ProcOnly s (cs.foldl (fun st child =>
          let st1 := { st with processed_paths := st.processed_paths.insert child }
          match dget st1.element_fields child with
          | some efs =>
              efs.foldl (fun st ef =>
                { st with processed_paths :=
                    st.processed_paths.insert (child ++ ".element." ++ ef) }) st1
          | none => st1) s)
        ∧ (∀ x ∈ s.processed_paths, x ∈ (cs.foldl (fun st child =>
            let st1 := { st with processed_paths := st.processed_paths.insert child }
            match dget st1.element_fields child with
            | some efs =>
                efs.foldl (fun st ef =>
                  { st with processed_paths :=
                      st.processed_paths.insert (child ++ ".element." ++ ef) }) st1
            | none => st1) s).processed_paths)
        ∧ (∀ x ∈ (cs.foldl (fun st child =>
            let st1 := { st with processed_paths := st.processed_paths.insert child }
            match dget st1.element_fields child with
            | some efs =>
                efs.foldl (fun st ef =>
                  { st with processed_paths :=
                      st.processed_paths.insert (child ++ ".element." ++ ef) }) st1
            | none => st1) s).processed_paths,
            x ∈ s.processed_paths ∨ '.' ∈ x.data) by
    obtain ⟨hp, hsup, hbnd⟩ := h children
      { st with processed_paths := st.processed_paths.insert path } hch
    refine ⟨(ProcOnly.insert st path).trans hp, ?_, ?_⟩
    · intro x hx
      exact hsup x (List.mem_insert_iff.mpr (Or.inr hx))
    · intro x hx
      rcases hbnd x hx with h1 | h1
      · rcases List.mem_insert_iff.mp h1 with rfl | h2
        · exact Or.inr (Or.inl rfl)
        · exact Or.inl h2
      · exact Or.inr (Or.inr h1)
  intro cs
  induction cs with
  | nil => intro s _; exact ⟨ProcOnly.refl s, fun x hx => hx, fun x hx => Or.inl hx⟩
  | cons child rest ih =>
      intro s hdot
      rw [List.foldl_cons]
      have hdc : '.' ∈ child.data := hdot child (List.mem_cons.mpr (Or.inl rfl))
      set s1 : GenState := { s with processed_paths := s.processed_paths.insert child }
        with hs1
      have step : ∀ s2 : GenState,
          (match dget s1.element_fields child with
           | some efs =>
               efs.foldl (fun st ef =>
                 { st with processed_paths :=
                     st.processed_paths.insert (child ++ ".element." ++ ef) }) s1
           | none => s1) = s2 →
          ProcOnly s1 s2
            ∧ (∀ x ∈ s1.processed_paths, x ∈ s2.processed_paths)
            ∧ (∀ x ∈ s2.processed_paths, x ∈ s1.processed_paths ∨ '.' ∈ x.data) := by
        intro s2 hs2
        cases hef : dget s1.element_fields child with
        | none =>
            rw [hef] at hs2
            subst hs2
            exact ⟨ProcOnly.refl s1, fun x hx => hx, fun x hx => Or.inl hx⟩
        | some efs =>
            rw [hef] at hs2
            subst hs2
            exact insert_elem_fold_spec child efs s1
      obtain ⟨hps, hsup1, hbnd1⟩ := step _ rfl
      obtain ⟨hp2, hsup2, hbnd2⟩ := ih _ (fun c hcm => hdot c (List.mem_cons.mpr (Or.inr hcm)))
      refine ⟨((ProcOnly.insert s child).trans hps).trans hp2, ?_, ?_⟩
      · intro x hx
        exact hsup2 x (hsup1 x (List.mem_insert_iff.mpr (Or.inr hx)))
      · intro x hx
        rcases hbnd2 x hx with h1 | h1
        · rcases hbnd1 x h1 with h2 | h2
          · rcases List.mem_insert_iff.mp h2 with rfl | h3
            · exact Or.inr hdc
            · exact Or.inl h3
          · exact Or.inr h2
        · exact Or.inr h1

/-- A successful `dget` exhibits a member of the association list. -/
theorem dget_mem {α : Type} : ∀ {d : List (String × α)} {k : String} {v : α},
    dget d k = some v → (k, v) ∈ d := by
  intro d
  induction d with
  | nil => intro k v h; cases h
  | cons e es ih =>
      intro k v h
      rw [dget, List.find?] at h
      by_cases hk : e.1 = k
      · simp only [hk, decide_True] at h
        injection h with h
        subst h
        subst hk
        exact List.mem_cons.mpr (Or.inl rfl)
      · simp only [hk, decide_False] at h
        exact List.mem_cons.mpr (Or.inr (ih (show dget es k = some v from h)))

/-- Replacing a key in a dict only introduces the new binding. -/
theorem mem_dset {α : Type} : ∀ (d : List (String × α)) (k : String) (v : α)
    (e : String × α), e ∈ dset d k v → e = (k, v) ∨ e ∈ d := by
  intro d
  induction d with
  | nil =>
      intro k v e he
      rw [dset] at he
      exact Or.inl (by simpa using he)
  | cons f fs ih =>
      intro k v e he
      rw [dset] at he
      by_cases hk : f.1 = k
      · rw [if_pos hk] at he
        rcases List.mem_cons.mp he with h | h
        · exact Or.inl h
        · exact Or.inr (List.mem_cons.mpr (Or.inr h))
      · rw [if_neg hk] at he
        rcases List.mem_cons.mp he with h | h
        · exact Or.inr (List.mem_cons.mpr (Or.inl h))
        · rcases ih k v e h with h2 | h2
          · exact Or.inl h2
          · exact Or.inr (List.mem_cons.mpr (Or.inr h2))

theorem ProcGrow.rfl (st : GenState) : ProcGrow st st :=
  ⟨ProcOnly.refl st, fun _ hx => hx, fun _ hx => Or.inl hx⟩

theorem ProcGrow.comp {a b c : GenState} (h1 : ProcGrow a b) (h2 : ProcGrow b c) :
    ProcGrow a c := by
  refine ⟨h1.1.trans h2.1, fun x hx => h2.2.1 x (h1.2.1 x hx), fun x hx => ?_⟩
  rcases h2.2.2 x hx with h | h
  · exact h1.2.2 x h
  · exact Or.inr h

theorem ProcGrow.insert_dotted (st : GenState) (p : String) (hp : '.' ∈ p.data) :
    ProcGrow st { st with processed_paths := st.processed_paths.insert p } := by
  refine ⟨ProcOnly.insert st p, fun x hx => List.mem_insert_iff.mpr (Or.inr hx),
    fun x hx => ?_⟩
  rcases List.mem_insert_iff.mp hx with rfl | h
  · exact Or.inr hp
  · exact Or.inl h

theorem ProcGrow.insert_mem (st : GenState) (p : String) (hp : p ∈ st.processed_paths) :
    ProcGrow st { st with processed_paths := st.processed_paths.insert p } := by
  refine ⟨ProcOnly.insert st p, fun x hx => List.mem_insert_iff.mpr (Or.inr hx),
    fun x hx => ?_⟩
  rcases List.mem_insert_iff.mp hx with rfl | h
  · exact Or.inl hp
  · exact Or.inl h

/-- A fold whose every step is a dotted-paths-only growth (knowing only that
the accumulator itself so extends `init`) yields a dotted-paths-only growth. -/
theorem foldl_ProcGrow {β : Type} (f : GenState → β → GenState) (init : GenState) :
    ∀ (l : List β) (s : GenState), ProcGrow init s →
      (∀ b ∈ l, ∀ t : GenState, ProcGrow init t → ProcGrow t (f t b)) →
      ProcGrow init (l.foldl f s) := by
  intro l
  induction l with
  | nil => intro s hs _; exact hs
  | cons b bs ih =>
      intro s hs hstep
      rw [List.foldl_cons]
      exact ih (f s b) (hs.comp (hstep b (List.mem_cons.mpr (Or.inl rfl)) s hs))
        (fun c hc => hstep c (List.mem_cons.mpr (Or.inr hc)))

/-- A true prefix test survives shortening the pattern on the right. -/
theorem isPre_of_append : ∀ (a b c : List Char), isPre (a ++ b) c = true → isPre a c = true := by
  intro a
  induction a with
  | nil => intro b c _; rfl
  | cons x xs ih =>
      intro b c h
      cases c with
      | nil => cases h
      | cons y ys =>
          rw [List.cons_append, isPre, Bool.and_eq_true] at h
          rw [isPre, Bool.and_eq_true]
          exact ⟨h.1, ih b ys h.2⟩

/-- A found substring transfers the membership of its characters. -/
theorem subSplitGo_mem (pat : List Char) : ∀ (s : List Char) (a b : List Char),
    subSplitGo pat s = some (a, b) → ∀ c ∈ pat, c ∈ s := by
  intro s
  induction s with
  | nil => intro a b h; cases h
  | cons x xs ih =>
      intro a b h c hc
      rw [subSplitGo] at h
      by_cases hp : isPre pat (x :: xs) = true
      · exact isPre_mem pat (x :: xs) hp c hc
      · rw [if_neg hp] at h
        cases hs : subSplitGo pat xs with
        | none => rw [hs] at h; cases h
        | some p =>
            rw [hs] at h
            exact List.mem_cons.mpr (Or.inr (ih p.1 p.2 (by rw [hs]) c hc))

/-- A path containing `".element."` contains a dot. -/
theorem containsSub_element_dot (p : String) (h : containsSub ".element." p = true) :
    '.' ∈ p.data := by
  rw [containsSub] at h
  cases hs : subSplitGo ".element.".data p.data with
  | none => rw [hs] at h; cases h
  | some q =>
      obtain ⟨a, b⟩ := q
      exact subSplitGo_mem ".element.".data p.data a b hs '.' (by decide)

/-- An element path under `child` contains a dot. -/
theorem elem_path_dot (child ef : String) : '.' ∈ (child ++ ".element." ++ ef).data := by
  rw [String.data_append, String.data_append]
  exact List.mem_append.mpr (Or.inl (List.mem_append.mpr (Or.inr (by decide))))

/-- One `_mark_processed_tree` child step only adds dotted paths. -/
theorem mpt_step_grow (child : String) (hd : '.' ∈ child.data) (t : GenState) :
    ProcGrow t (
      let s1 : GenState := { t with processed_paths := t.processed_paths.insert child }
      match dget s1.element_fields child with
      | some efs =>
          efs.foldl (fun u ef =>
            { u with processed_paths := u.processed_paths.insert (child ++ ".element." ++ ef) }) s1
      | none => s1) := by
  have hpe : ({ t with processed_paths := t.processed_paths.insert child } :
      GenState).element_fields = t.element_fields := rfl
  dsimp only []
  rw [hpe]
  cases hef : dget t.element_fields child with
  | none => exact ProcGrow.insert_dotted t child hd
  | some efs =>
      refine (ProcGrow.insert_dotted t child hd).comp ?_
      refine foldl_ProcGrow _ _ efs _ (ProcGrow.rfl _) ?_
      intro ef _ u _
      exact ProcGrow.insert_dotted u (child ++ ".element." ++ ef) (elem_path_dot child ef)

/-- `_mark_processed_tree` adds only the parent path and dotted paths. -/
theorem mark_processed_tree_grow (st : GenState) (path : String) (children : List String)
    (hch : ∀ c ∈ children, '.' ∈ c.data) :
    ProcGrow { st with processed_paths := st.processed_paths.insert path }
      (mark_processed_tree st path children) := by
  have heq : mark_processed_tree st path children
      = children.foldl (fun t child =>
          let s1 : GenState := { t with processed_paths := t.processed_paths.insert child }
          match dget s1.element_fields child with
          | some efs =>
              efs.foldl (fun u ef =>
                { u with processed_paths :=
                    u.processed_paths.insert (child ++ ".element." ++ ef) }) s1
          | none => s1)
        { st with processed_paths := st.processed_paths.insert path } := rfl
  rw [heq]
  exact foldl_ProcGrow _ _ children _ (ProcGrow.rfl _)
    (fun c hc t _ => mpt_step_grow c (hch c hc) t)

/-- `_mark_processed` adds only the parent path and dotted descendants. -/
theorem mark_processed_grow (st : GenState) (parent : String) :
    ProcGrow { st with processed_paths := st.processed_paths.insert parent }
      (mark_processed st parent) := by
  have heq : mark_processed st parent
      = (dkeys st.path_data).foldl
          (fun t p =>
            if p != parent && pyStartswith p (parent ++ ".") then
              { t with processed_paths := t.processed_paths.insert p }
            else t)
          { st with processed_paths := st.processed_paths.insert parent } := rfl
  rw [heq]
  refine foldl_ProcGrow _ _ _ _ (ProcGrow.rfl _) ?_
  intro p _ t _
  by_cases hc : (p != parent && pyStartswith p (parent ++ ".")) = true
  · rw [if_pos hc]
    have hsw := ((Bool.and_eq_true _ _).mp hc).2
    rw [pyStartswith] at hsw
    refine ProcGrow.insert_dotted t p (isPre_mem _ _ hsw '.' ?_)
    rw [String.data_append]
    exact List.mem_append.mpr (Or.inr (by decide))
  · rw [if_neg hc]
    exact ProcGrow.rfl t

/-- `_mark_array_elements_processed` adds only dotted paths (the recorded
element paths, all dotted by `wf_aef`). -/
theorem maep_grow (st : GenState) (path : String) (hw : wf_aef st) :
    ProcGrow st (mark_array_elements_processed st path) := by
  rw [mark_array_elements_processed]
  cases h1 : dget st.array_element_fields path with
  | none => exact ProcGrow.rfl st
  | some m =>
      have hmd : ∀ f ∈ m, '.' ∈ f.2.data := hw (path, m) (dget_mem h1)
      have hg1 : ProcGrow st (m.foldl (fun t f =>
          if dmem t.path_data f.2 then
            { t with processed_paths := t.processed_paths.insert f.2 } else t) st) := by
        refine foldl_ProcGrow _ st m st (ProcGrow.rfl st) ?_
        intro f hf t _
        by_cases hd : dmem t.path_data f.2 = true
        · rw [if_pos hd]; exact ProcGrow.insert_dotted t f.2 (hmd f hf)
        · rw [if_neg hd]; exact ProcGrow.rfl t
      dsimp only []
      cases h2 : dget (m.foldl (fun t f =>
          if dmem t.path_data f.2 then
            { t with processed_paths := t.processed_paths.insert f.2 } else t)
          st).nested_arrays path with
      | none => exact hg1
      | some naps =>
          refine foldl_ProcGrow _ st naps _ hg1 ?_
          intro nap _ t ht
          have haef : t.array_element_fields = st.array_element_fields :=
            (ProcOnly.statics ht.1).2.2.1
          show ProcGrow t (match dget t.array_element_fields nap with
            | none => t
            | some m2 =>
                m2.foldl (fun u f =>
                  if dmem u.path_data f.2 then
                    { u with processed_paths := u.processed_paths.insert f.2 } else u) t)
          cases h3 : dget t.array_element_fields nap with
          | none => exact ProcGrow.rfl t
          | some m2 =>
              rw [haef] at h3
              have hm2 : ∀ f ∈ m2, '.' ∈ f.2.data := hw (nap, m2) (dget_mem h3)
              refine foldl_ProcGrow _ t m2 t (ProcGrow.rfl t) ?_
              intro f hf u _
              by_cases hd : dmem u.path_data f.2 = true
              · rw [if_pos hd]; exact ProcGrow.insert_dotted u f.2 (hm2 f hf)
              · rw [if_neg hd]; exact ProcGrow.rfl u

/-- `_format_struct` on an unprocessed nonempty path always emits a
`struct<`-headed definition and grows `processed_paths` by the path itself
and dotted paths only. -/
theorem format_struct_run (fuel : Nat) (st : GenState) (path : String) (item : Item)
    (hne : path ≠ "") (hun : st.processed_paths.contains path = false) :
    ∃ t st', format_struct fuel st path item
        = (some ("    " ++ format_path path ++ " struct<" ++ t), st')
      ∧ ProcGrow { st with processed_paths := st.processed_paths.insert path } st' := by
  rw [format_struct, hun]
  simp only [Bool.false_eq_true, if_false]
  by_cases hch : (get_direct_children st path).isEmpty = true
  · rw [if_pos hch]
    refine ⟨"> " ++ format_comment (item.doc.getD "") ++ format_after_clause item, _,
      ?_, ProcGrow.rfl _⟩
    rw [show (" struct<> " : String) = " struct<" ++ "> " from rfl]
    simp only [String.append_assoc]
  · rw [if_neg hch]
    refine ⟨"\n" ++ format_struct_content fuel st path 2 ++ "\n    > "
        ++ format_comment (item.doc.getD "") ++ format_after_clause item, _, ?_,
      mark_processed_tree_grow st path (get_direct_children st path)
        (get_direct_children_dotted st path hne)⟩
    rw [show (" struct<\n" : String) = " struct<" ++ "\n" from rfl]
    simp only [String.append_assoc]

/-- `_format_dotted_object` always yields a `struct<`-headed definition. -/
theorem fdo_shape (fuel : Nat) (st : GenState) (path fp comment ac : String) :
    ∃ t, format_dotted_object fuel st path fp comment ac
      = "    " ++ fp ++ " struct<" ++ t := by
  rw [format_dotted_object]
  by_cases h1 : has_children st path = true
  · rw [if_pos h1]
    dsimp only []
    by_cases h2 : stripTruthy (format_struct_content fuel st path 2) = true
    · rw [if_pos h2]
      refine ⟨"\n" ++ format_struct_content fuel st path 2 ++ "\n    > "
          ++ format_comment comment ++ ac, ?_⟩
      rw [show (" struct<\n" : String) = " struct<" ++ "\n" from rfl]
      simp only [String.append_assoc]
    · rw [if_neg h2]
      refine ⟨"> " ++ format_comment comment ++ ac, ?_⟩
      rw [show (" struct<> " : String) = " struct<" ++ "> " from rfl]
      simp only [String.append_assoc]
  · rw [if_neg h1]
    refine ⟨"> " ++ format_comment comment ++ ac, ?_⟩
    rw [show (" struct<> " : String) = " struct<" ++ "> " from rfl]
    simp only [String.append_assoc]

/-- `_format_dotted_array`: the emitted text is a column definition for the
formatted path, and the state grows by dotted paths only. -/
theorem fda_spec (fuel : Nat) (st : GenState) (path fp : String) (item : Item)
    (comment ac : String) (hw : wf_aef st) :
    ProcGrow st (format_dotted_array fuel st path fp item comment ac).2
      ∧ ∃ t, (format_dotted_array fuel st path fp item comment ac).1
          = "    " ++ fp ++ " " ++ t := by
  rw [format_dotted_array]
  dsimp only []
  split
  · split
    · constructor
      · exact maep_grow st path hw
      · refine ⟨"array<struct<\n" ++ format_array_struct_content fuel st path 3
            ++ "\n    >> " ++ format_comment comment ++ ac, ?_⟩
        rw [show (" array<struct<\n" : String) = " " ++ "array<struct<\n" from rfl]
        simp only [String.append_assoc]
    · constructor
      · exact ProcGrow.rfl st
      · refine ⟨"array<" ++ item.arr_type.getD "string" ++ "> "
            ++ format_comment comment ++ ac, ?_⟩
        rw [show (" array<" : String) = " " ++ "array<" from rfl]
        simp only [String.append_assoc]
  · constructor
    · exact ProcGrow.rfl st
    · refine ⟨"array<" ++ item.arr_type.getD "string" ++ "> "
          ++ format_comment comment ++ ac, ?_⟩
      rw [show (" array<" : String) = " " ++ "array<" from rfl]
      simp only [String.append_assoc]

/-- `_format_dotted_path` either skips (returning the state unchanged) or
reaches one of the three value branches. -/
theorem fdp_cases (fuel : Nat) (st : GenState) (item : Item) :
    format_dotted_path fuel st item = (none, st)
      ∨ format_dotted_path fuel st item
        = (if item.value = "object" then
            ((some (format_dotted_object fuel st item.path (format_path item.path)
              (item.doc.getD "") (format_after_clause item)) : Option String), st)
          else if item.value = "array" then
            (some (format_dotted_array fuel st item.path (format_path item.path) item
                (item.doc.getD "") (format_after_clause item)).1,
             (format_dotted_array fuel st item.path (format_path item.path) item
                (item.doc.getD "") (format_after_clause item)).2)
          else
            (some ("    " ++ format_path item.path ++ " " ++ ddlGet item.value ++ " "
              ++ format_comment (item.doc.getD "") ++ format_after_clause item), st)) := by
  rw [format_dotted_path]
  dsimp only []
  repeat' split
  all_goals first
    | exact Or.inl rfl
    | exact Or.inr rfl

/-- `_format_dotted_path` only grows the state by dotted paths, and whatever
it emits is a column definition headed by the item's own path. -/
theorem fdp_grow (fuel : Nat) (st : GenState) (item : Item) (hw : wf_aef st) :
    ProcGrow st (format_dotted_path fuel st item).2
      ∧ ∀ s, (format_dotted_path fuel st item).1 = some s →
          ∃ t, s = "    " ++ format_path item.path ++ " " ++ t := by
  rcases fdp_cases fuel st item with h | h
  · rw [h]
    exact ⟨ProcGrow.rfl st, fun s hs => by cases hs⟩
  · rw [h]
    by_cases hobj : item.value = "object"
    · rw [if_pos hobj]
      refine ⟨ProcGrow.rfl st, ?_⟩
      intro s hs
      obtain ⟨t, ht⟩ := fdo_shape fuel st item.path (format_path item.path)
        (item.doc.getD "") (format_after_clause item)
      refine ⟨"struct<" ++ t, ?_⟩
      rw [(Option.some.inj hs).symm, ht]
      rw [show (" struct<" : String) = " " ++ "struct<" from rfl]
      simp only [String.append_assoc]
    · rw [if_neg hobj]
      by_cases harr : item.value = "array"
      · rw [if_pos harr]
        obtain ⟨hg, t, ht⟩ := fda_spec fuel st item.path (format_path item.path) item
          (item.doc.getD "") (format_after_clause item) hw
        refine ⟨hg, ?_⟩
        intro s hs
        exact ⟨t, by rw [(Option.some.inj hs).symm]; exact ht⟩
      · rw [if_neg harr]
        refine ⟨ProcGrow.rfl st, ?_⟩
        intro s hs
        refine ⟨ddlGet item.value ++ " " ++ format_comment (item.doc.getD "")
            ++ format_after_clause item, ?_⟩
        rw [(Option.some.inj hs).symm]
        simp only [String.append_assoc]

/-- On a dotless object descriptor `_format_dotted_path` never skips: it
emits a `struct<`-headed definition and leaves the state unchanged. -/
theorem fdp_dotless_object (fuel : Nat) (st : GenState) (item : Item)
    (hdot : '.' ∉ item.path.data) (hobj : item.value = "object") :
    ∃ t, format_dotted_path fuel st item
      = (some ("    " ++ format_path item.path ++ " struct<" ++ t), st) := by
  have hcs := containsSub_element_dotless item.path hdot
  have hsd := splitDot_dotless item.path hdot
  rw [format_dotted_path]
  dsimp only []
  rw [hcs, hsd]
  simp only [Bool.false_eq_true, if_false, List.length_cons, List.length_nil, gt_iff_lt,
    lt_self_iff_false, decide_False, Bool.false_and, Bool.or_self, ite_false]
  rw [if_pos hobj]
  obtain ⟨t, ht⟩ := fdo_shape fuel st item.path (format_path item.path)
    (item.doc.getD "") (format_after_clause item)
  exact ⟨t, by rw [ht]⟩

/-- A struct-headed definition reassociated as a generic column definition. -/
theorem struct_head_col (p t : String) :
    "    " ++ format_path p ++ " struct<" ++ t
      = "    " ++ format_path p ++ " " ++ ("struct<" ++ t) := by
  rw [show (" struct<" : String) = " " ++ "struct<" from rfl]
  simp only [String.append_assoc]

/-- The top-level pass: it mutates only `processed_paths`, grows the
processed set by item paths and dotted paths only, and every string it
emits is a column definition headed by the path of one of its items, a path
it also marks processed. -/
theorem ptl_go_grow (fuel : Nat) : ∀ (l : List Item) (st : GenState), wf_aef st →
    (∀ it ∈ l, it.path ≠ "") →
    ProcOnly st (process_top_level_go fuel l st).2
      ∧ (∀ x ∈ st.processed_paths, x ∈ (process_top_level_go fuel l st).2.processed_paths)
      ∧ (∀ x ∈ (process_top_level_go fuel l st).2.processed_paths,
          x ∈ st.processed_paths ∨ x ∈ l.map Item.path ∨ '.' ∈ x.data)
      ∧ (∀ s ∈ (process_top_level_go fuel l st).1,
          ∃ it ∈ l, (∃ t, s = "    " ++ format_path it.path ++ " " ++ t)
            ∧ it.path ∈ (process_top_level_go fuel l st).2.processed_paths) := by
  intro l
  induction l with
  | nil =>
      intro st _ _
      exact ⟨ProcOnly.refl st, fun _ hx => hx, fun _ hx => Or.inl hx,
        fun s hs => absurd hs (List.not_mem_nil s)⟩
  | cons item rest ih =>
      intro st hw hne
      have hnei : item.path ≠ "" := hne item (List.mem_cons.mpr (Or.inl rfl))
      have hner : ∀ it ∈ rest, it.path ≠ "" :=
        fun it hit => hne it (List.mem_cons.mpr (Or.inr hit))
      rw [process_top_level_go]
      by_cases hc : st.processed_paths.contains item.path = true
      · rw [if_pos hc]
        obtain ⟨h1, h2, h3, h4⟩ := ih st hw hner
        refine ⟨h1, h2, ?_, ?_⟩
        · intro x hx
          rcases h3 x hx with h | h | h
          · exact Or.inl h
          · exact Or.inr (Or.inl (List.mem_cons.mpr (Or.inr h)))
          · exact Or.inr (Or.inr h)
        · intro s hs
          obtain ⟨it, hit, hsh, hpp⟩ := h4 s hs
          exact ⟨it, List.mem_cons.mpr (Or.inr hit), hsh, hpp⟩
      · rw [if_neg hc]
        have hcf : st.processed_paths.contains item.path = false := by
          cases h : st.processed_paths.contains item.path
          · rfl
          · exact absurd h hc
        by_cases hb : (decide (item.value = "object") && has_children st item.path) = true
        · rw [if_pos hb]
          obtain ⟨t, st', hfs, hgrow⟩ := format_struct_run fuel st item.path item hnei hcf
          rw [hfs]
          dsimp only []
          have hpmem : item.path ∈ st'.processed_paths :=
            hgrow.2.1 item.path (List.mem_insert_iff.mpr (Or.inl rfl))
          have hk : ProcGrow { st with processed_paths := st.processed_paths.insert item.path }
              (mark_processed st' item.path) :=
            hgrow.comp ((ProcGrow.insert_mem st' item.path hpmem).comp
              (mark_processed_grow st' item.path))
          have hpo : ProcOnly st (mark_processed st' item.path) :=
            (ProcOnly.insert st item.path).trans hk.1
          have hwm : wf_aef (mark_processed st' item.path) := wf_aef_of_ProcOnly hpo hw
          obtain ⟨h1, h2, h3, h4⟩ := ih (mark_processed st' item.path) hwm hner
          have hpm2 : item.path ∈ (mark_processed st' item.path).processed_paths :=
            hk.2.1 item.path (List.mem_insert_iff.mpr (Or.inl rfl))
          refine ⟨hpo.trans h1, ?_, ?_, ?_⟩
          · intro x hx
            exact h2 x (hk.2.1 x (List.mem_insert_iff.mpr (Or.inr hx)))
          · intro x hx
            rcases h3 x hx with h | h | h
            · rcases hk.2.2 x h with h5 | h5
              · rcases List.mem_insert_iff.mp h5 with rfl | h6
                · exact Or.inr (Or.inl (List.mem_cons.mpr (Or.inl rfl)))
                · exact Or.inl h6
              · exact Or.inr (Or.inr h5)
            · exact Or.inr (Or.inl (List.mem_cons.mpr (Or.inr h)))
            · exact Or.inr (Or.inr h)
          · intro s hs
            rcases List.mem_cons.mp hs with rfl | hs2
            · exact ⟨item, List.mem_cons.mpr (Or.inl rfl),
                ⟨"struct<" ++ t, struct_head_col item.path t⟩, h2 item.path hpm2⟩
            · obtain ⟨it, hit, hsh, hpp⟩ := h4 s hs2
              exact ⟨it, List.mem_cons.mpr (Or.inr hit), hsh, hpp⟩
        · rw [if_neg hb]
          obtain ⟨hg, hsh⟩ := fdp_grow fuel st item hw
          cases hr0 : format_dotted_path fuel st item with
          | mk o s2 =>
              rw [hr0] at hg hsh
              cases o with
              | some d =>
                  dsimp only []
                  have hpo2 : ProcOnly st
                      { s2 with processed_paths := s2.processed_paths.insert item.path } :=
                    hg.1.trans (ProcOnly.insert s2 item.path)
                  have hw2 : wf_aef
                      { s2 with processed_paths := s2.processed_paths.insert item.path } :=
                    wf_aef_of_ProcOnly hpo2 hw
                  obtain ⟨h1, h2, h3, h4⟩ := ih
                    { s2 with processed_paths := s2.processed_paths.insert item.path } hw2 hner
                  refine ⟨hpo2.trans h1, ?_, ?_, ?_⟩
                  · intro x hx
                    exact h2 x (List.mem_insert_iff.mpr (Or.inr (hg.2.1 x hx)))
                  · intro x hx
                    rcases h3 x hx with h | h | h
                    · rcases List.mem_insert_iff.mp h with rfl | h5
                      · exact Or.inr (Or.inl (List.mem_cons.mpr (Or.inl rfl)))
                      · rcases hg.2.2 x h5 with h6 | h6
                        · exact Or.inl h6
                        · exact Or.inr (Or.inr h6)
                    · exact Or.inr (Or.inl (List.mem_cons.mpr (Or.inr h)))
                    · exact Or.inr (Or.inr h)
                  · intro s hs
                    rcases List.mem_cons.mp hs with rfl | hs2
                    · exact ⟨item, List.mem_cons.mpr (Or.inl rfl), hsh s rfl,
                        h2 item.path (List.mem_insert_iff.mpr (Or.inl rfl))⟩
                    · obtain ⟨it, hit, hsh2, hpp⟩ := h4 s hs2
                      exact ⟨it, List.mem_cons.mpr (Or.inr hit), hsh2, hpp⟩
              | none =>
                  dsimp only []
                  have hpo2 : ProcOnly st s2 := hg.1
                  obtain ⟨h1, h2, h3, h4⟩ := ih s2 (wf_aef_of_ProcOnly hpo2 hw) hner
                  refine ⟨hpo2.trans h1, ?_, ?_, ?_⟩
                  · intro x hx
                    exact h2 x (hg.2.1 x hx)
                  · intro x hx
                    rcases h3 x hx with h | h | h
                    · rcases hg.2.2 x h with h5 | h5
                      · exact Or.inl h5
                      · exact Or.inr (Or.inr h5)
                    · exact Or.inr (Or.inl (List.mem_cons.mpr (Or.inr h)))
                    · exact Or.inr (Or.inr h)
                  · intro s hs
                    obtain ⟨it, hit, hsh2, hpp⟩ := h4 s hs
                    exact ⟨it, List.mem_cons.mpr (Or.inr hit), hsh2, hpp⟩

/-- The sweep pass: same discipline as the top-level pass. -/
theorem prem_go_grow (fuel : Nat) : ∀ (l : List Item) (st : GenState), wf_aef st →
    ProcOnly st (process_remaining_go fuel l st).2
      ∧ (∀ x ∈ st.processed_paths, x ∈ (process_remaining_go fuel l st).2.processed_paths)
      ∧ (∀ x ∈ (process_remaining_go fuel l st).2.processed_paths,
          x ∈ st.processed_paths ∨ x ∈ l.map Item.path ∨ '.' ∈ x.data)
      ∧ (∀ s ∈ (process_remaining_go fuel l st).1,
          ∃ it ∈ l, (∃ t, s = "    " ++ format_path it.path ++ " " ++ t)
            ∧ it.path ∈ (process_remaining_go fuel l st).2.processed_paths) := by
  intro l
  induction l with
  | nil =>
      intro st _
      exact ⟨ProcOnly.refl st, fun _ hx => hx, fun _ hx => Or.inl hx,
        fun s hs => absurd hs (List.not_mem_nil s)⟩
  | cons item rest ih =>
      intro st hw
      rw [process_remaining_go]
      obtain ⟨hg, hsh⟩ := fdp_grow fuel st item hw
      cases hr0 : format_dotted_path fuel st item with
      | mk o s2 =>
          rw [hr0] at hg hsh
          cases o with
          | some d =>
              dsimp only []
              have hpo2 : ProcOnly st
                  { s2 with processed_paths := s2.processed_paths.insert item.path } :=
                hg.1.trans (ProcOnly.insert s2 item.path)
              have hw2 : wf_aef
                  { s2 with processed_paths := s2.processed_paths.insert item.path } :=
                wf_aef_of_ProcOnly hpo2 hw
              obtain ⟨h1, h2, h3, h4⟩ := ih
                { s2 with processed_paths := s2.processed_paths.insert item.path } hw2
              refine ⟨hpo2.trans h1, ?_, ?_, ?_⟩
              · intro x hx
                exact h2 x (List.mem_insert_iff.mpr (Or.inr (hg.2.1 x hx)))
              · intro x hx
                rcases h3 x hx with h | h | h
                · rcases List.mem_insert_iff.mp h with rfl | h5
                  · exact Or.inr (Or.inl (List.mem_cons.mpr (Or.inl rfl)))
                  · rcases hg.2.2 x h5 with h6 | h6
                    · exact Or.inl h6
                    · exact Or.inr (Or.inr h6)
                · exact Or.inr (Or.inl (List.mem_cons.mpr (Or.inr h)))
                · exact Or.inr (Or.inr h)
              · intro s hs
                rcases List.mem_cons.mp hs with rfl | hs2
                · exact ⟨item, List.mem_cons.mpr (Or.inl rfl), hsh s rfl,
                    h2 item.path (List.mem_insert_iff.mpr (Or.inl rfl))⟩
                · obtain ⟨it, hit, hsh2, hpp⟩ := h4 s hs2
                  exact ⟨it, List.mem_cons.mpr (Or.inr hit), hsh2, hpp⟩
          | none =>
              dsimp only []
              have hpo2 : ProcOnly st s2 := hg.1
              obtain ⟨h1, h2, h3, h4⟩ := ih s2 (wf_aef_of_ProcOnly hpo2 hw)
              refine ⟨hpo2.trans h1, ?_, ?_, ?_⟩
              · intro x hx
                exact h2 x (hg.2.1 x hx)
              · intro x hx
                rcases h3 x hx with h | h | h
                · rcases hg.2.2 x h with h5 | h5
                  · exact Or.inl h5
                  · exact Or.inr (Or.inr h5)
                · exact Or.inr (Or.inl (List.mem_cons.mpr (Or.inr h)))
                · exact Or.inr (Or.inr h)
              · intro s hs
                obtain ⟨it, hit, hsh2, hpp⟩ := h4 s hs
                exact ⟨it, List.mem_cons.mpr (Or.inr hit), hsh2, hpp⟩

/-- The top-level pass emits no definition headed by a path carried by none
of its items. -/
theorem ptl_go_count_zero (fuel : Nat) (q : String) (hq : '`' ∉ q.data)
    (l : List Item) (st : GenState) (hw : wf_aef st)
    (hne : ∀ it ∈ l, it.path ≠ "") (hcl : ∀ it ∈ l, '`' ∉ it.path.data)
    (hnq : q ∉ l.map Item.path) :
    List.countP (fun s => isColFor q s) (process_top_level_go fuel l st).1 = 0 := by
  rw [List.countP_eq_zero]
  intro s hs hcol
  obtain ⟨_, _, _, h4⟩ := ptl_go_grow fuel l st hw hne
  obtain ⟨it, hit, ⟨t, hst⟩, _⟩ := h4 s hs
  have hqe : q = it.path := isColFor_inj q it.path t hq (hcl it hit) (hst ▸ hcol)
  exact hnq (List.mem_map.mpr ⟨it, hit, hqe.symm⟩)

/-- The sweep pass emits no definition headed by a path carried by none of
its items. -/
theorem prem_go_count_zero (fuel : Nat) (q : String) (hq : '`' ∉ q.data)
    (l : List Item) (st : GenState) (hw : wf_aef st)
    (hcl : ∀ it ∈ l, '`' ∉ it.path.data)
    (hnq : q ∉ l.map Item.path) :
    List.countP (fun s => isColFor q s) (process_remaining_go fuel l st).1 = 0 := by
  rw [List.countP_eq_zero]
  intro s hs hcol
  obtain ⟨_, _, _, h4⟩ := prem_go_grow fuel l st hw
  obtain ⟨it, hit, ⟨t, hst⟩, _⟩ := h4 s hs
  have hqe : q = it.path := isColFor_inj q it.path t hq (hcl it hit) (hst ▸ hcol)
  exact hnq (List.mem_map.mpr ⟨it, hit, hqe.symm⟩)

/-- The top-level pass emits at most one definition headed by any given
backtick-free path, provided item paths are distinct and clean. -/
theorem ptl_go_count_le_one (fuel : Nat) (q : String) (hq : '`' ∉ q.data) :
    ∀ (l : List Item) (st : GenState), wf_aef st →
    (∀ it ∈ l, it.path ≠ "") → (∀ it ∈ l, '`' ∉ it.path.data) →
    (l.map Item.path).Nodup →
    List.countP (fun s => isColFor q s) (process_top_level_go fuel l st).1 ≤ 1 := by
  intro l
  induction l with
  | nil => intro st _ _ _ _; exact Nat.zero_le 1
  | cons item rest ih =>
      intro st hw hne hcl hnd
      have hnei : item.path ≠ "" := hne item (List.mem_cons.mpr (Or.inl rfl))
      have hner : ∀ it ∈ rest, it.path ≠ "" :=
        fun it hit => hne it (List.mem_cons.mpr (Or.inr hit))
      have hclr : ∀ it ∈ rest, '`' ∉ it.path.data :=
        fun it hit => hcl it (List.mem_cons.mpr (Or.inr hit))
      have hndr : (rest.map Item.path).Nodup := (List.nodup_cons.mp hnd).2
      have hhn : item.path ∉ rest.map Item.path := (List.nodup_cons.mp hnd).1
      rw [process_top_level_go]
      by_cases hc : st.processed_paths.contains item.path = true
      · rw [if_pos hc]
        exact ih st hw hner hclr hndr
      · rw [if_neg hc]
        have hcf : st.processed_paths.contains item.path = false := by
          cases h : st.processed_paths.contains item.path
          · rfl
          · exact absurd h hc
        by_cases hb : (decide (item.value = "object") && has_children st item.path) = true
        · rw [if_pos hb]
          obtain ⟨t, st', hfs, hgrow⟩ := format_struct_run fuel st item.path item hnei hcf
          rw [hfs]
          dsimp only []
          rw [List.countP_cons]
          have hpo : ProcOnly st (mark_processed st' item.path) :=
            (ProcOnly.insert st item.path).trans
              (hgrow.comp ((ProcGrow.insert_mem st' item.path
                (hgrow.2.1 item.path (List.mem_insert_iff.mpr (Or.inl rfl)))).comp
                  (mark_processed_grow st' item.path))).1
          have hwm : wf_aef (mark_processed st' item.path) := wf_aef_of_ProcOnly hpo hw
          by_cases hpq : item.path = q
          · have hz := ptl_go_count_zero fuel q hq rest _ hwm hner hclr (hpq ▸ hhn)
            rw [hz]
            split <;> norm_num
          · have hpf : isColFor q ("    " ++ format_path item.path ++ " struct<" ++ t)
                = false := by
              cases hicf : isColFor q ("    " ++ format_path item.path ++ " struct<" ++ t)
              · rfl
              · exact absurd (isColFor_inj q item.path ("struct<" ++ t) hq
                  (hcl item (List.mem_cons.mpr (Or.inl rfl)))
                  (by rw [← struct_head_col]; exact hicf)) (fun h => hpq h.symm)
            simp only [hpf, Bool.false_eq_true, if_false, Nat.add_zero]
            exact ih _ hwm hner hclr hndr
        · rw [if_neg hb]
          obtain ⟨hg, hsh⟩ := fdp_grow fuel st item hw
          cases hr0 : format_dotted_path fuel st item with
          | mk o s2 =>
              rw [hr0] at hg hsh
              cases o with
              | some dstr =>
                  dsimp only []
                  rw [List.countP_cons]
                  obtain ⟨t, hst⟩ := hsh dstr rfl
                  have hpo2 : ProcOnly st
                      { s2 with processed_paths := s2.processed_paths.insert item.path } :=
                    hg.1.trans (ProcOnly.insert s2 item.path)
                  have hw2 := wf_aef_of_ProcOnly hpo2 hw
                  by_cases hpq : item.path = q
                  · have hz := ptl_go_count_zero fuel q hq rest _ hw2 hner hclr (hpq ▸ hhn)
                    rw [hz]
                    split <;> norm_num
                  · have hpf : isColFor q dstr = false := by
                      cases hicf : isColFor q dstr
                      · rfl
                      · exact absurd (isColFor_inj q item.path t hq
                          (hcl item (List.mem_cons.mpr (Or.inl rfl)))
                          (hst ▸ hicf)) (fun h => hpq h.symm)
                    simp only [hpf, Bool.false_eq_true, if_false, Nat.add_zero]
                    exact ih _ hw2 hner hclr hndr
              | none =>
                  dsimp only []
                  exact ih s2 (wf_aef_of_ProcOnly hg.1 hw) hner hclr hndr

/-- The sweep pass emits at most one definition headed by any given
backtick-free path, provided item paths are distinct and clean. -/
theorem prem_go_count_le_one (fuel : Nat) (q : String) (hq : '`' ∉ q.data) :
    ∀ (l : List Item) (st : GenState), wf_aef st →
    (∀ it ∈ l, '`' ∉ it.path.data) →
    (l.map Item.path).Nodup →
    List.countP (fun s => isColFor q s) (process_remaining_go fuel l st).1 ≤ 1 := by
  intro l
  induction l with
  | nil => intro st _ _ _; exact Nat.zero_le 1
  | cons item rest ih =>
      intro st hw hcl hnd
      have hclr : ∀ it ∈ rest, '`' ∉ it.path.data :=
        fun it hit => hcl it (List.mem_cons.mpr (Or.inr hit))
      have hndr : (rest.map Item.path).Nodup := (List.nodup_cons.mp hnd).2
      have hhn : item.path ∉ rest.map Item.path := (List.nodup_cons.mp hnd).1
      rw [process_remaining_go]
      obtain ⟨hg, hsh⟩ := fdp_grow fuel st item hw
      cases hr0 : format_dotted_path fuel st item with
      | mk o s2 =>
          rw [hr0] at hg hsh
          cases o with
          | some dstr =>
              dsimp only []
              rw [List.countP_cons]
              obtain ⟨t, hst⟩ := hsh dstr rfl
              have hpo2 : ProcOnly st
                  { s2 with processed_paths := s2.processed_paths.insert item.path } :=
                hg.1.trans (ProcOnly.insert s2 item.path)
              have hw2 := wf_aef_of_ProcOnly hpo2 hw
              by_cases hpq : item.path = q
              · have hz := prem_go_count_zero fuel q hq rest _ hw2 hclr (hpq ▸ hhn)
                rw [hz]
                split <;> norm_num
              · have hpf : isColFor q dstr = false := by
                  cases hicf : isColFor q dstr
                  · rfl
                  · exact absurd (isColFor_inj q item.path t hq
                      (hcl item (List.mem_cons.mpr (Or.inl rfl)))
                      (hst ▸ hicf)) (fun h => hpq h.symm)
                simp only [hpf, Bool.false_eq_true, if_false, Nat.add_zero]
                exact ih _ hw2 hclr hndr
          | none =>
              dsimp only []
              exact ih s2 (wf_aef_of_ProcOnly hg.1 hw) hclr hndr

/-- If the top-level pass holds an unprocessed dotless object descriptor, it
emits exactly one definition for that path, struct-headed, and marks the
path processed. -/
theorem ptl_go_count_one (fuel : Nat) (q : String) (hqt : '`' ∉ q.data) (hqd : '.' ∉ q.data) :
    ∀ (l : List Item) (st : GenState), wf_aef st →
    (∀ it ∈ l, it.path ≠ "") → (∀ it ∈ l, '`' ∉ it.path.data) →
    (l.map Item.path).Nodup →
    ∀ d ∈ l, d.path = q → d.value = "object" → q ∉ st.processed_paths →
    List.countP (fun s => isColFor q s) (process_top_level_go fuel l st).1 = 1
      ∧ (∃ s ∈ (process_top_level_go fuel l st).1, isStructColFor q s = true)
      ∧ q ∈ (process_top_level_go fuel l st).2.processed_paths := by
  intro l
  induction l with
  | nil => intro st _ _ _ _ d hd; exact absurd hd (List.not_mem_nil d)
  | cons item rest ih =>
      intro st hw hne hcl hnd d hd hdq hdobj hqnp
      have hnei : item.path ≠ "" := hne item (List.mem_cons.mpr (Or.inl rfl))
      have hner : ∀ it ∈ rest, it.path ≠ "" :=
        fun it hit => hne it (List.mem_cons.mpr (Or.inr hit))
      have hclr : ∀ it ∈ rest, '`' ∉ it.path.data :=
        fun it hit => hcl it (List.mem_cons.mpr (Or.inr hit))
      have hcli : '`' ∉ item.path.data := hcl item (List.mem_cons.mpr (Or.inl rfl))
      have hndr : (rest.map Item.path).Nodup := (List.nodup_cons.mp hnd).2
      have hhn : item.path ∉ rest.map Item.path := (List.nodup_cons.mp hnd).1
      rcases List.mem_cons.mp hd with rfl | hdr
      · -- the head carries the target path
        rw [show q = d.path from hdq.symm]
        have hqd2 : '.' ∉ d.path.data := by rw [hdq]; exact hqd
        have hcf : st.processed_paths.contains d.path = false := by
          cases h : st.processed_paths.contains d.path
          · rfl
          · rw [hdq] at h
            exact absurd (by simpa using h) hqnp
        have hcn : ¬(st.processed_paths.contains d.path = true) := by
          rw [hcf]
          exact Bool.false_ne_true
        rw [process_top_level_go, if_neg hcn]
        by_cases hb : (decide (d.value = "object") && has_children st d.path) = true
        · rw [if_pos hb]
          obtain ⟨t, st', hfs, hgrow⟩ := format_struct_run fuel st d.path d hnei hcf
          rw [hfs]
          dsimp only []
          have hk : ProcGrow { st with processed_paths := st.processed_paths.insert d.path }
              (mark_processed st' d.path) :=
            hgrow.comp ((ProcGrow.insert_mem st' d.path
              (hgrow.2.1 d.path (List.mem_insert_iff.mpr (Or.inl rfl)))).comp
                (mark_processed_grow st' d.path))
          have hpo : ProcOnly st (mark_processed st' d.path) :=
            (ProcOnly.insert st d.path).trans hk.1
          have hwm : wf_aef (mark_processed st' d.path) := wf_aef_of_ProcOnly hpo hw
          have hz := ptl_go_count_zero fuel d.path hcli rest _ hwm hner hclr hhn
          have hrg := ptl_go_grow fuel rest (mark_processed st' d.path) hwm hner
          have hqm : d.path ∈ (mark_processed st' d.path).processed_paths :=
            hk.2.1 d.path (List.mem_insert_iff.mpr (Or.inl rfl))
          have hsh := isStructColFor_of_shape d.path t
            ("    " ++ format_path d.path ++ " struct<" ++ t) rfl
          refine ⟨?_, ?_, ?_⟩
          · rw [List.countP_cons, hz]
            simp only [hsh.2, if_true]
          · exact ⟨"    " ++ format_path d.path ++ " struct<" ++ t,
              List.mem_cons.mpr (Or.inl rfl), hsh.1⟩
          · exact hrg.2.1 d.path hqm
        · rw [if_neg hb]
          obtain ⟨t, heq⟩ := fdp_dotless_object fuel st d hqd2 hdobj
          rw [heq]
          dsimp only []
          have hpo : ProcOnly st
              { st with processed_paths := st.processed_paths.insert d.path } :=
            ProcOnly.insert st d.path
          have hwm := wf_aef_of_ProcOnly hpo hw
          have hz := ptl_go_count_zero fuel d.path hcli rest _ hwm hner hclr hhn
          have hrg := ptl_go_grow fuel rest
            { st with processed_paths := st.processed_paths.insert d.path } hwm hner
          have hsh := isStructColFor_of_shape d.path t
            ("    " ++ format_path d.path ++ " struct<" ++ t) rfl
          refine ⟨?_, ?_, ?_⟩
          · rw [List.countP_cons, hz]
            simp only [hsh.2, if_true]
          · exact ⟨"    " ++ format_path d.path ++ " struct<" ++ t,
              List.mem_cons.mpr (Or.inl rfl), hsh.1⟩
          · exact hrg.2.1 d.path (List.mem_insert_iff.mpr (Or.inl rfl))
      · -- the target item sits deeper in the list
        have hiq : item.path ≠ q :=
          fun h => hhn (h ▸ List.mem_map.mpr ⟨d, hdr, hdq⟩)
        rw [process_top_level_go]
        by_cases hc : st.processed_paths.contains item.path = true
        · rw [if_pos hc]
          exact ih st hw hner hclr hndr d hdr hdq hdobj hqnp
        · rw [if_neg hc]
          have hcf : st.processed_paths.contains item.path = false := by
            cases h : st.processed_paths.contains item.path
            · rfl
            · exact absurd h hc
          by_cases hb : (decide (item.value = "object") && has_children st item.path) = true
          · rw [if_pos hb]
            obtain ⟨t, st', hfs, hgrow⟩ := format_struct_run fuel st item.path item hnei hcf
            rw [hfs]
            dsimp only []
            have hk : ProcGrow
                { st with processed_paths := st.processed_paths.insert item.path }
                (mark_processed st' item.path) :=
              hgrow.comp ((ProcGrow.insert_mem st' item.path
                (hgrow.2.1 item.path (List.mem_insert_iff.mpr (Or.inl rfl)))).comp
                  (mark_processed_grow st' item.path))
            have hpo : ProcOnly st (mark_processed st' item.path) :=
              (ProcOnly.insert st item.path).trans hk.1
            have hwm : wf_aef (mark_processed st' item.path) := wf_aef_of_ProcOnly hpo hw
            have hqm : q ∉ (mark_processed st' item.path).processed_paths := by
              intro hq2
              rcases hk.2.2 q hq2 with h5 | h5
              · rcases List.mem_insert_iff.mp h5 with h6 | h6
                · exact hiq h6.symm
                · exact hqnp h6
              · exact hqd h5
            obtain ⟨hcount, hwit, hproc⟩ := ih (mark_processed st' item.path) hwm hner
              hclr hndr d hdr hdq hdobj hqm
            have hpf : isColFor q ("    " ++ format_path item.path ++ " struct<" ++ t)
                = false := by
              cases hicf : isColFor q ("    " ++ format_path item.path ++ " struct<" ++ t)
              · rfl
              · exact absurd (isColFor_inj q item.path ("struct<" ++ t) hqt hcli
                  (by rw [← struct_head_col]; exact hicf)) (fun h => hiq h.symm)
            refine ⟨?_, ?_, hproc⟩
            · rw [List.countP_cons, hcount]
              simp only [hpf, Bool.false_eq_true, if_false]
            · obtain ⟨s, hs, hss⟩ := hwit
              exact ⟨s, List.mem_cons.mpr (Or.inr hs), hss⟩
          · rw [if_neg hb]
            obtain ⟨hg, hsh⟩ := fdp_grow fuel st item hw
            cases hr0 : format_dotted_path fuel st item with
            | mk o s2 =>
                rw [hr0] at hg hsh
                cases o with
                | some dstr =>
                    dsimp only []
                    obtain ⟨t, hst⟩ := hsh dstr rfl
                    have hpo2 : ProcOnly st
                        { s2 with processed_paths := s2.processed_paths.insert item.path } :=
                      hg.1.trans (ProcOnly.insert s2 item.path)
                    have hw2 := wf_aef_of_ProcOnly hpo2 hw
                    have hqm : q ∉
                        ({ s2 with processed_paths :=
                            s2.processed_paths.insert item.path }).processed_paths := by
                      intro hq2
                      rcases List.mem_insert_iff.mp hq2 with h6 | h6
                      · exact hiq h6.symm
                      · rcases hg.2.2 q h6 with h7 | h7
                        · exact hqnp h7
                        · exact hqd h7
                    obtain ⟨hcount, hwit, hproc⟩ := ih _ hw2 hner hclr hndr d hdr hdq hdobj hqm
                    have hpf : isColFor q dstr = false := by
                      cases hicf : isColFor q dstr
                      · rfl
                      · exact absurd (isColFor_inj q item.path t hqt hcli (hst ▸ hicf))
                          (fun h => hiq h.symm)
                    refine ⟨?_, ?_, hproc⟩
                    · rw [List.countP_cons, hcount]
                      simp only [hpf, Bool.false_eq_true, if_false]
                    · obtain ⟨s, hs, hss⟩ := hwit
                      exact ⟨s, List.mem_cons.mpr (Or.inr hs), hss⟩
                | none =>
                    dsimp only []
                    have hqm : q ∉ s2.processed_paths := by
                      intro hq2
                      rcases hg.2.2 q hq2 with h7 | h7
                      · exact hqnp h7
                      · exact hqd h7
                    exact ih s2 (wf_aef_of_ProcOnly hg.1 hw) hner hclr hndr d hdr hdq hdobj hqm

/-- If the sweep pass holds a dotless object descriptor, it emits exactly
one definition for that path, struct-headed. -/
theorem prem_go_count_one (fuel : Nat) (q : String) (hqt : '`' ∉ q.data) (hqd : '.' ∉ q.data) :
    ∀ (l : List Item) (st : GenState), wf_aef st →
    (∀ it ∈ l, '`' ∉ it.path.data) →
    (l.map Item.path).Nodup →
    ∀ d ∈ l, d.path = q → d.value = "object" →
    List.countP (fun s => isColFor q s) (process_remaining_go fuel l st).1 = 1
      ∧ (∃ s ∈ (process_remaining_go fuel l st).1, isStructColFor q s = true) := by
  intro l
  induction l with
  | nil => intro st _ _ _ d hd; exact absurd hd (List.not_mem_nil d)
  | cons item rest ih =>
      intro st hw hcl hnd d hd hdq hdobj
      have hclr : ∀ it ∈ rest, '`' ∉ it.path.data :=
        fun it hit => hcl it (List.mem_cons.mpr (Or.inr hit))
      have hcli : '`' ∉ item.path.data := hcl item (List.mem_cons.mpr (Or.inl rfl))
      have hndr : (rest.map Item.path).Nodup := (List.nodup_cons.mp hnd).2
      have hhn : item.path ∉ rest.map Item.path := (List.nodup_cons.mp hnd).1
      rcases List.mem_cons.mp hd with rfl | hdr
      · rw [show q = d.path from hdq.symm]
        have hqd2 : '.' ∉ d.path.data := by rw [hdq]; exact hqd
        rw [process_remaining_go]
        obtain ⟨t, heq⟩ := fdp_dotless_object fuel st d hqd2 hdobj
        rw [heq]
        dsimp only []
        have hpo : ProcOnly st
            { st with processed_paths := st.processed_paths.insert d.path } :=
          ProcOnly.insert st d.path
        have hwm := wf_aef_of_ProcOnly hpo hw
        have hz := prem_go_count_zero fuel d.path hcli rest _ hwm hclr hhn
        have hsh := isStructColFor_of_shape d.path t
          ("    " ++ format_path d.path ++ " struct<" ++ t) rfl
        refine ⟨?_, ?_⟩
        · rw [List.countP_cons, hz]
          simp only [hsh.2, if_true]
        · exact ⟨"    " ++ format_path d.path ++ " struct<" ++ t,
            List.mem_cons.mpr (Or.inl rfl), hsh.1⟩
      · have hiq : item.path ≠ q :=
          fun h => hhn (h ▸ List.mem_map.mpr ⟨d, hdr, hdq⟩)
        rw [process_remaining_go]
        obtain ⟨hg, hsh⟩ := fdp_grow fuel st item hw
        cases hr0 : format_dotted_path fuel st item with
        | mk o s2 =>
            rw [hr0] at hg hsh
            cases o with
            | some dstr =>
                dsimp only []
                obtain ⟨t, hst⟩ := hsh dstr rfl
                have hpo2 : ProcOnly st
                    { s2 with processed_paths := s2.processed_paths.insert item.path } :=
                  hg.1.trans (ProcOnly.insert s2 item.path)
                have hw2 := wf_aef_of_ProcOnly hpo2 hw
                obtain ⟨hcount, hwit⟩ := ih _ hw2 hclr hndr d hdr hdq hdobj
                have hpf : isColFor q dstr = false := by
                  cases hicf : isColFor q dstr
                  · rfl
                  · exact absurd (isColFor_inj q item.path t hqt hcli (hst ▸ hicf))
                      (fun h => hiq h.symm)
                refine ⟨?_, ?_⟩
                · rw [List.countP_cons, hcount]
                  simp only [hpf, Bool.false_eq_true, if_false]
                · obtain ⟨s, hs, hss⟩ := hwit
                  exact ⟨s, List.mem_cons.mpr (Or.inr hs), hss⟩
            | none =>
                dsimp only []
                exact ih s2 (wf_aef_of_ProcOnly hg.1 hw) hclr hndr d hdr hdq hdobj

/-- Replacing an `array_element_fields` entry by a dotted-valued map keeps
the index well formed. -/
theorem wf_aef_set (st : GenState) (k : String) (m : List (String × String))
    (hw : wf_aef st) (hm : ∀ f ∈ m, '.' ∈ f.2.data) :
    wf_aef { st with array_element_fields := dset st.array_element_fields k m } := by
  intro e he f hf
  rcases mem_dset _ k m e he with rfl | h
  · exact hm f hf
  · exact hw e h f hf

/-- Updating `nested_arrays` keeps the index well formed. -/
theorem wf_aef_na (st : GenState) (na : List (String × List String)) (hw : wf_aef st) :
    wf_aef { st with nested_arrays := na } := hw

/-- Values of a recorded element-field map are all dotted. -/
theorem wf_getD (st : GenState) (k : String) (hw : wf_aef st) :
    ∀ f ∈ (dget st.array_element_fields k).getD [], '.' ∈ f.2.data := by
  cases h : dget st.array_element_fields k with
  | none =>
      intro f hf
      exact absurd hf (List.not_mem_nil f)
  | some m =>
      intro f hf
      exact hw (k, m) (dget_mem h) f hf

/-- Writing one dotted path into an element-field map keeps it dotted. -/
theorem wf_inner_dset (m : List (String × String)) (k p : String)
    (hm : ∀ f ∈ m, '.' ∈ f.2.data) (hp : '.' ∈ p.data) :
    ∀ f ∈ dset m k p, '.' ∈ f.2.data := by
  intro f hf
  rcases mem_dset m k p f hf with rfl | h
  · exact hp
  · exact hm f h

/-- `_process_multilevel_element_path` keeps the index well formed when the
path it records is dotted. -/
theorem pmep_wf (st : GenState) (path : String) (segments : List String)
    (base_path : String) (hp : '.' ∈ path.data) (hw : wf_aef st) :
    wf_aef (process_multilevel_element_path st path segments base_path) := by
  rw [process_multilevel_element_path]
  dsimp only []
  repeat' split
  all_goals first
    | exact wf_aef_na _ _ hw
    | exact wf_aef_set _ _ _ (wf_aef_na _ _ hw) (fun f hf => absurd hf (List.not_mem_nil f))
    | exact wf_aef_set _ _ _ (wf_aef_na _ _ hw)
        (wf_inner_dset _ _ path (wf_getD _ _ (wf_aef_na _ _ hw)) hp)
    | exact wf_aef_set _ _ _
        (wf_aef_set _ _ _ (wf_aef_na _ _ hw) (fun f hf => absurd hf (List.not_mem_nil f)))
        (wf_inner_dset _ _ path
          (wf_getD _ _ (wf_aef_set _ _ _ (wf_aef_na _ _ hw)
            (fun f hf => absurd hf (List.not_mem_nil f)))) hp)

/-- `_process_simple_element_path` keeps the index well formed when the path
it records is dotted. -/
theorem psep_wf (st : GenState) (path : String) (segments : List String)
    (base_path : String) (hp : '.' ∈ path.data) (hw : wf_aef st) :
    wf_aef (process_simple_element_path st path segments base_path) := by
  rw [process_simple_element_path]
  exact wf_aef_set st base_path _ hw (wf_inner_dset _ _ path (wf_getD st base_path hw) hp)

/-- `_process_element_path` keeps the index well formed when processing a
dotted path. -/
theorem pep_wf (st : GenState) (path : String) (hp : '.' ∈ path.data) (hw : wf_aef st) :
    wf_aef (process_element_path st path) := by
  rw [process_element_path]
  repeat' split
  all_goals first
    | exact hw
    | exact wf_aef_set _ _ _ hw (fun f hf => absurd hf (List.not_mem_nil f))
    | exact pmep_wf _ path _ _ hp hw
    | exact pmep_wf _ path _ _ hp
        (wf_aef_set _ _ _ hw (fun f hf => absurd hf (List.not_mem_nil f)))
    | exact psep_wf _ path _ _ hp hw
    | exact psep_wf _ path _ _ hp
        (wf_aef_set _ _ _ hw (fun f hf => absurd hf (List.not_mem_nil f)))

/-- Folding `_process_element_path` over dotted paths keeps the index well
formed. -/
theorem pep_fold_wf : ∀ (l : List String) (s : GenState),
    (∀ p ∈ l, '.' ∈ p.data) → wf_aef s →
    wf_aef (l.foldl process_element_path s) := by
  intro l
  induction l with
  | nil => intro s _ hw; exact hw
  | cons p rest ih =>
      intro s hl hw
      rw [List.foldl_cons]
      exact ih _ (fun x hx => hl x (List.mem_cons.mpr (Or.inr hx)))
        (pep_wf s p (hl p (List.mem_cons.mpr (Or.inl rfl))) hw)

/-- `_process_array_elements` always builds a well-formed element-fields
index: every recorded element path contains a dot. -/
theorem pae_wf (st : GenState) : wf_aef (process_array_elements st) := by
  rw [process_array_elements]
  dsimp only []
  refine pep_fold_wf _ _ ?_ (fun e he => absurd he (List.not_mem_nil e))
  intro p hp
  have hp2 : p ∈ (dkeys ({ st with array_element_fields := ([] : List (String × List (String × String))), nested_arrays := ([] : List (String × List String)) } : GenState).path_data).filter
      (fun p => containsSub ".element." p) :=
    (pySortBy_perm _ _).mem_iff.mp hp
  exact containsSub_element_dot p (List.of_mem_filter hp2)

/-- `_process_simple_element_path` touches only `array_element_fields`. -/
theorem psep_proj (st : GenState) (path : String) (segments : List String)
    (base_path : String) :
    (process_simple_element_path st path segments base_path).processed_paths
        = st.processed_paths
      ∧ (process_simple_element_path st path segments base_path).input_data = st.input_data
      ∧ (process_simple_element_path st path segments base_path).top_level_items
          = st.top_level_items
      ∧ (process_simple_element_path st path segments base_path).path_data = st.path_data :=
  ⟨rfl, rfl, rfl, rfl⟩

/-- `_process_multilevel_element_path` touches only `array_element_fields`
and `nested_arrays`. -/
theorem pmep_proj (st : GenState) (path : String) (segments : List String)
    (base_path : String) :
    (process_multilevel_element_path st path segments base_path).processed_paths
        = st.processed_paths
      ∧ (process_multilevel_element_path st path segments base_path).input_data
          = st.input_data
      ∧ (process_multilevel_element_path st path segments base_path).top_level_items
          = st.top_level_items
      ∧ (process_multilevel_element_path st path segments base_path).path_data
          = st.path_data := by
  rw [process_multilevel_element_path]
  dsimp only []
  repeat' split
  all_goals exact ⟨rfl, rfl, rfl, rfl⟩

/-- `_process_element_path` touches only `array_element_fields` and
`nested_arrays`. -/
theorem pep_proj (st : GenState) (path : String) :
    (process_element_path st path).processed_paths = st.processed_paths
      ∧ (process_element_path st path).input_data = st.input_data
      ∧ (process_element_path st path).top_level_items = st.top_level_items
      ∧ (process_element_path st path).path_data = st.path_data := by
  rw [process_element_path]
  repeat' split
  all_goals first
    | exact ⟨rfl, rfl, rfl, rfl⟩
    | exact pmep_proj _ path _ _
    | exact psep_proj _ path _ _

/-- Folding `_process_element_path` touches only the two derived maps. -/
theorem pep_fold_proj : ∀ (l : List String) (s : GenState),
    (l.foldl process_element_path s).processed_paths = s.processed_paths
      ∧ (l.foldl process_element_path s).input_data = s.input_data
      ∧ (l.foldl process_element_path s).top_level_items = s.top_level_items
      ∧ (l.foldl process_element_path s).path_data = s.path_data := by
  intro l
  induction l with
  | nil => intro s; exact ⟨rfl, rfl, rfl, rfl⟩
  | cons p rest ih =>
      intro s
      rw [List.foldl_cons]
      obtain ⟨h1, h2, h3, h4⟩ := ih (process_element_path s p)
      obtain ⟨g1, g2, g3, g4⟩ := pep_proj s p
      exact ⟨h1.trans g1, h2.trans g2, h3.trans g3, h4.trans g4⟩

/-- `_process_array_elements` touches only the two derived maps. -/
theorem pae_proj (st : GenState) :
    (process_array_elements st).processed_paths = st.processed_paths
      ∧ (process_array_elements st).input_data = st.input_data
      ∧ (process_array_elements st).top_level_items = st.top_level_items
      ∧ (process_array_elements st).path_data = st.path_data := by
  rw [process_array_elements]
  exact pep_fold_proj _ _

/-- One `_process_path_items` step: driver-relevant projections are
preserved and `top_level_items` is at most appended with the item. -/
theorem ppi_step_proj (st : GenState) (tlp : List String) (item : Item) :
    (ppi_step (st, tlp) item).1.input_data = st.input_data
      ∧ (ppi_step (st, tlp) item).1.processed_paths = st.processed_paths
      ∧ (ppi_step (st, tlp) item).1.array_element_fields = st.array_element_fields
      ∧ (ppi_step (st, tlp) item).1.nested_arrays = st.nested_arrays
      ∧ ((ppi_step (st, tlp) item).1.top_level_items = st.top_level_items
          ∨ (ppi_step (st, tlp) item).1.top_level_items = st.top_level_items ++ [item]) := by
  rw [ppi_step]
  dsimp only []
  by_cases hc : tlp.contains ((splitDot item.path).headD "") = true
  · rw [if_pos hc]
    obtain ⟨anf, hanf⟩ := panf_shape
      { st with path_data := dset st.path_data item.path item } item item.path
    rw [hanf]
    exact ⟨rfl, rfl, rfl, rfl, Or.inl rfl⟩
  · rw [if_neg hc]
    obtain ⟨anf, hanf⟩ := panf_shape
      { st with path_data := dset st.path_data item.path item,
                top_level_items := st.top_level_items ++ [item] } item item.path
    rw [hanf]
    exact ⟨rfl, rfl, rfl, rfl, Or.inr rfl⟩

/-- The `_process_path_items` fold: driver-relevant projections are
preserved and `top_level_items` grows by a subsequence of the processed
items. -/
theorem ppi_fold_proj : ∀ (l : List Item) (st : GenState) (tlp : List String),
    (l.foldl ppi_step (st, tlp)).1.input_data = st.input_data
      ∧ (l.foldl ppi_step (st, tlp)).1.processed_paths = st.processed_paths
      ∧ (l.foldl ppi_step (st, tlp)).1.array_element_fields = st.array_element_fields
      ∧ (l.foldl ppi_step (st, tlp)).1.nested_arrays = st.nested_arrays
      ∧ ∃ sub, (l.foldl ppi_step (st, tlp)).1.top_level_items
          = st.top_level_items ++ sub ∧ sub.Sublist l := by
  intro l
  induction l with
  | nil =>
      intro st tlp
      exact ⟨rfl, rfl, rfl, rfl, [], by simp, List.nil_sublist []⟩
  | cons item rest ih =>
      intro st tlp
      rw [List.foldl_cons]
      obtain ⟨h1, h2, h3, h4, sub, h5, h6⟩ :=
        ih (ppi_step (st, tlp) item).1 (ppi_step (st, tlp) item).2
      obtain ⟨g1, g2, g3, g4, g5⟩ := ppi_step_proj st tlp item
      refine ⟨h1.trans g1, h2.trans g2, h3.trans g3, h4.trans g4, ?_⟩
      rcases g5 with g5 | g5
      · exact ⟨sub, by rw [h5, g5], h6.trans (List.sublist_cons_self item rest)⟩
      · refine ⟨item :: sub, ?_, List.cons_sublist_cons.mpr h6⟩
        rw [h5, g5]
        simp

/-- The state handed to the two driver passes: empty processed set, the
original input list, a `top_level_items` subsequence of the input, and a
well-formed element-fields index. -/
theorem st0_facts (items : List Item) :
    (process_array_elements (preprocess_input { input_data := items })).processed_paths = []
      ∧ (process_array_elements (preprocess_input { input_data := items })).input_data = items
      ∧ (process_array_elements
          (preprocess_input { input_data := items })).top_level_items.Sublist items
      ∧ wf_aef (process_array_elements (preprocess_input { input_data := items })) := by
  obtain ⟨p1, p2, p3, _⟩ := pae_proj (preprocess_input { input_data := items })
  obtain ⟨f1, f2, f3, f4, sub, f5, f6⟩ := ppi_fold_proj
    (track_original_order { input_data := items }).input_data
    (track_original_order { input_data := items }) []
  have hpp : preprocess_input { input_data := items }
      = ((track_original_order { input_data := items }).input_data.foldl ppi_step
          (track_original_order { input_data := items }, [])).1 := by
    rw [preprocess_input, process_path_items_eq]
  refine ⟨?_, ?_, ?_, pae_wf _⟩
  · rw [p1, hpp, f2]
    rfl
  · rw [p2, hpp, f1]
    rfl
  · rw [p3, hpp, f5]
    simpa using f6

/-- `_is_child_of_processed_path` is vacuously false on a dotless path. -/
theorem is_child_dotless (st : GenState) (p : String) (h : '.' ∉ p.data) :
    is_child_of_processed_path st p = false := by
  rw [is_child_of_processed_path]
  rw [splitDot_dotless p h]
  rfl

/-- Assembly of the two passes over an abstract start state: the struct path
is emitted exactly once (struct-headed) and every clean path heads at most
one definition of the combined output. -/
theorem add_go_assembly (fuel : Nat) (items : List Item) (st0 : GenState) (out : List String)
    (hout : out = (process_top_level_go fuel st0.top_level_items st0).1
      ++ (process_remaining_go fuel
          (pySortBy (fun it => Int.ofNat
            ((dget (process_top_level_go fuel st0.top_level_items st0).2.original_order
              it.path).getD 999999))
            (get_remaining_items (process_top_level_go fuel st0.top_level_items st0).2))
          (process_top_level_go fuel st0.top_level_items st0).2).1)
    (hproc0 : st0.processed_paths = []) (hinput0 : st0.input_data = items)
    (htl0 : st0.top_level_items.Sublist items) (hwf0 : wf_aef st0)
    (P : String) (d : Item) (hd : d ∈ items) (hdp : d.path = P) (hdv : d.value = "object")
    (hPd : '.' ∉ P.data)
    (hclean : ∀ it ∈ items, clean_path it.path)
    (hnodup : (items.map Item.path).Nodup) :
    List.countP (fun s => isColFor P s) out = 1
      ∧ (∃ s ∈ out, isStructColFor P s = true)
      ∧ (∀ q : String, clean_path q → List.countP (fun s => isColFor q s) out ≤ 1) := by
  subst hout
  generalize hR : pySortBy (fun it => Int.ofNat
      ((dget (process_top_level_go fuel st0.top_level_items st0).2.original_order
        it.path).getD 999999))
      (get_remaining_items (process_top_level_go fuel st0.top_level_items st0).2) = REM
  have hPc : clean_path P := by rw [← hdp]; exact hclean d hd
  have hPt : '`' ∉ P.data := hPc.2
  have hne_items : ∀ it ∈ items, it.path ≠ "" := by
    intro it hit h
    exact (hclean it hit).1 (by rw [h])
  have htick_items : ∀ it ∈ items, '`' ∉ it.path.data := fun it hit => (hclean it hit).2
  have htl_ne : ∀ it ∈ st0.top_level_items, it.path ≠ "" :=
    fun it hit => hne_items it (htl0.subset hit)
  have htl_tick : ∀ it ∈ st0.top_level_items, '`' ∉ it.path.data :=
    fun it hit => htick_items it (htl0.subset hit)
  have htl_nodup : (st0.top_level_items.map Item.path).Nodup :=
    hnodup.sublist (htl0.map Item.path)
  obtain ⟨m1po, m1sup, m1bound, m1emit⟩ := ptl_go_grow fuel st0.top_level_items st0 hwf0 htl_ne
  have hwf1 : wf_aef (process_top_level_go fuel st0.top_level_items st0).2 :=
    wf_aef_of_ProcOnly m1po hwf0
  have hinput1 : (process_top_level_go fuel st0.top_level_items st0).2.input_data = items :=
    (ProcOnly.statics m1po).1.trans hinput0
  have hgri : get_remaining_items (process_top_level_go fuel st0.top_level_items st0).2
      = items.filter (fun it =>
          !(process_top_level_go fuel st0.top_level_items st0).2.processed_paths.contains it.path
          && !is_child_of_processed_path
              (process_top_level_go fuel st0.top_level_items st0).2 it.path) := by
    rw [get_remaining_items, hinput1]
  have hremperm : REM.Perm
      (get_remaining_items (process_top_level_go fuel st0.top_level_items st0).2) := by
    rw [← hR]
    exact pySortBy_perm _ _
  have hremmem : ∀ it ∈ REM, it ∈ items := by
    intro it hit
    have h2 := (hremperm.mem_iff).mp hit
    rw [hgri] at h2
    exact List.mem_of_mem_filter h2
  have hremtick : ∀ it ∈ REM, '`' ∉ it.path.data :=
    fun it hit => htick_items it (hremmem it hit)
  have hgrin : ((get_remaining_items
      (process_top_level_go fuel st0.top_level_items st0).2).map Item.path).Nodup := by
    rw [hgri]
    exact hnodup.sublist ((List.filter_sublist items).map Item.path)
  have hremnodup : (REM.map Item.path).Nodup := ((hremperm.map Item.path).nodup_iff).mpr hgrin
  have hnotrem : ∀ q : String,
      q ∈ (process_top_level_go fuel st0.top_level_items st0).2.processed_paths →
      q ∉ REM.map Item.path := by
    intro q hqp hqm
    obtain ⟨it2, hit2, hit2p⟩ := List.mem_map.mp hqm
    have hit2g := (hremperm.mem_iff).mp hit2
    rw [hgri] at hit2g
    have hpred := (List.mem_filter.mp hit2g).2
    have hct : (process_top_level_go fuel
        st0.top_level_items st0).2.processed_paths.contains q = true := by simpa using hqp
    rw [hit2p, hct] at hpred
    simp at hpred
  have hle : ∀ q : String, clean_path q →
      List.countP (fun s => isColFor q s)
        ((process_top_level_go fuel st0.top_level_items st0).1
          ++ (process_remaining_go fuel REM
              (process_top_level_go fuel st0.top_level_items st0).2).1) ≤ 1 := by
    intro q hq
    rw [List.countP_append]
    by_cases h0 : List.countP (fun s => isColFor q s)
        (process_top_level_go fuel st0.top_level_items st0).1 = 0
    · rw [h0]
      simpa using prem_go_count_le_one fuel q hq.2 REM
        (process_top_level_go fuel st0.top_level_items st0).2 hwf1 hremtick hremnodup
    · have hpos : 0 < List.countP (fun s => isColFor q s)
          (process_top_level_go fuel st0.top_level_items st0).1 := Nat.pos_of_ne_zero h0
      obtain ⟨s, hs, hcols⟩ := List.countP_pos.mp hpos
      obtain ⟨it, hit, ⟨t, hst⟩, hitproc⟩ := m1emit s hs
      have hqit : q = it.path := isColFor_inj q it.path t hq.2 (htl_tick it hit) (hst ▸ hcols)
      have hqproc : q ∈ (process_top_level_go fuel
          st0.top_level_items st0).2.processed_paths := hqit ▸ hitproc
      have hz := prem_go_count_zero fuel q hq.2 REM
        (process_top_level_go fuel st0.top_level_items st0).2 hwf1 hremtick (hnotrem q hqproc)
      rw [hz]
      have hl1 := ptl_go_count_le_one fuel q hq.2 st0.top_level_items st0 hwf0 htl_ne
        htl_tick htl_nodup
      omega
  by_cases hA : P ∈ st0.top_level_items.map Item.path
  · obtain ⟨it0, hit0, hit0p⟩ := List.mem_map.mp hA
    have hit0d : it0 = d :=
      List.inj_on_of_nodup_map hnodup (htl0.subset hit0) hd (by rw [hit0p, hdp])
    obtain ⟨hc1, hwit1, hPproc1⟩ := ptl_go_count_one fuel P hPt hPd st0.top_level_items st0
      hwf0 htl_ne htl_tick htl_nodup d (hit0d ▸ hit0) hdp hdv
      (by rw [hproc0]; exact List.not_mem_nil P)
    have hz2 := prem_go_count_zero fuel P hPt REM
      (process_top_level_go fuel st0.top_level_items st0).2 hwf1 hremtick (hnotrem P hPproc1)
    refine ⟨?_, ?_, hle⟩
    · rw [List.countP_append, hc1, hz2]
    · obtain ⟨s, hs, hss⟩ := hwit1
      exact ⟨s, List.mem_append.mpr (Or.inl hs), hss⟩
  · have hz1 := ptl_go_count_zero fuel P hPt st0.top_level_items st0 hwf0 htl_ne htl_tick hA
    have hPnp : P ∉ (process_top_level_go fuel st0.top_level_items st0).2.processed_paths := by
      intro hp
      rcases m1bound P hp with h | h | h
      · rw [hproc0] at h
        exact absurd h (List.not_mem_nil P)
      · exact hA h
      · exact hPd h
    have hdcont : (process_top_level_go fuel
        st0.top_level_items st0).2.processed_paths.contains d.path = false := by
      cases hcc : (process_top_level_go fuel
          st0.top_level_items st0).2.processed_paths.contains d.path
      · rfl
      · rw [hdp] at hcc
        exact absurd (by simpa using hcc) hPnp
    have hdchild : is_child_of_processed_path
        (process_top_level_go fuel st0.top_level_items st0).2 d.path = false :=
      is_child_dotless _ d.path (by rw [hdp]; exact hPd)
    have hdgri : d ∈ get_remaining_items
        (process_top_level_go fuel st0.top_level_items st0).2 := by
      rw [hgri]
      refine List.mem_filter.mpr ⟨hd, ?_⟩
      rw [hdcont, hdchild]
      rfl
    have hdrem : d ∈ REM := (hremperm.mem_iff).mpr hdgri
    obtain ⟨hc2, hwit2⟩ := prem_go_count_one fuel P hPt hPd REM
      (process_top_level_go fuel st0.top_level_items st0).2 hwf1 hremtick hremnodup d hdrem
      hdp hdv
    refine ⟨?_, ?_, hle⟩
    · rw [List.countP_append, hz1, hc2]
    · obtain ⟨s, hs, hss⟩ := hwit2
      exact ⟨s, List.mem_append.mpr (Or.inr hs), hss⟩

/-- C1: for an ADD descriptor list holding a struct descriptor at a
top-level path `P` together with descriptors below it (all paths nonempty,
backtick-free and pairwise distinct), the column assembly of
`OrderPreservingGenerator.generate_sql` emits exactly one column definition
headed by `P`, that definition is `struct<`-typed, and no path — in
particular no descendant path of `P` — heads more than one definition
anywhere in the combined output of the two passes. -/
theorem c1_struct_emitted_once (items : List Item) (P : String) (d : Item)
    (hd : d ∈ items) (hdp : d.path = P) (hdv : d.value = "object")
    (hPd : '.' ∉ P.data)
    (hclean : ∀ it ∈ items, clean_path it.path)
    (hnodup : (items.map Item.path).Nodup)
    (hdesc : ∃ e ∈ items, strict_descendant P e.path = true) :
    List.countP (fun s => isColFor P s) (add_column_definitions items) = 1
      ∧ (∃ s ∈ add_column_definitions items, isStructColFor P s = true)
      ∧ (∀ q : String, clean_path q →
          List.countP (fun s => isColFor q s) (add_column_definitions items) ≤ 1) := by
  obtain ⟨hproc0, hinput0, htl0, hwf0⟩ := st0_facts items
  exact add_go_assembly (add_fuel items) items
    (process_array_elements (preprocess_input { input_data := items }))
    (add_column_definitions items) rfl hproc0 hinput0 htl0 hwf0 P d hd hdp hdv hPd
    hclean hnodup

/-- C1 witness: a two-descriptor input (struct `p` with child `p.x`)
satisfies the hypotheses, and the conclusions hold for it. -/
theorem c1_witness :
    List.countP (fun s => isColFor "p" s)
        (add_column_definitions [({ path := "p", value := "object" } : Item),
          { path := "p.x", value := "string" }]) = 1
      ∧ (∃ s ∈ add_column_definitions [({ path := "p", value := "object" } : Item),
            { path := "p.x", value := "string" }], isStructColFor "p" s = true)
      ∧ (∀ q : String, clean_path q →
          List.countP (fun s => isColFor q s)
            (add_column_definitions [({ path := "p", value := "object" } : Item),
              { path := "p.x", value := "string" }]) ≤ 1) :=
  c1_struct_emitted_once
    [({ path := "p", value := "object" } : Item), { path := "p.x", value := "string" }]
    "p" { path := "p", value := "object" }
    (List.mem_cons.mpr (Or.inl rfl)) rfl rfl (by decide) (by decide) (by decide)
    ⟨{ path := "p.x", value := "string" }, List.mem_cons.mpr (Or.inr (List.mem_cons.mpr
      (Or.inl rfl))), by decide⟩
